import Mathlib

/-!
Verification of the syft cataloging-engine specification against a shallow
embedding of the source code.

Each definition in the DEFINITIONS part is translated from a named Go
function or type of the repository.  Go maps are embedded as association
lists (insertion ordered); Go strings as `String`; Go byte slices as
`List Nat`; fallible functions return `Option` or `Except`.  Definitions
whose Go counterpart is not part of the provided sources (only referenced
by them) carry a doc comment starting with "Modelled from the spec:".

The THEOREMS part settles the claims; helper lemmas are shared, claim
theorems are stand-alone.
-/

/- ===================== DEFINITIONS ===================== -/

/-! ### syft/artifact/relationship.go -/

/-- Embeds `artifact.RelationshipType` (a Go string type). -/
abbrev RelationshipType := String

/-- Embeds the constant `OwnershipByFileOverlapRelationship`. -/
def OwnershipByFileOverlapRelationship : RelationshipType := "ownership-by-file-overlap"

/-- Embeds the constant `EvidentByRelationship`. -/
def EvidentByRelationship : RelationshipType := "evident-by"

/-- Embeds the constant `ContainsRelationship`. -/
def ContainsRelationship : RelationshipType := "contains"

/-- Embeds the constant `DependencyOfRelationship`. -/
def DependencyOfRelationship : RelationshipType := "dependency-of"

/-- Embeds the constant `DescribedByRelationship`. -/
def DescribedByRelationship : RelationshipType := "described-by"

/-- Embeds `artifact.AllRelationshipTypes` (syft/artifact/relationship.go). -/
def AllRelationshipTypes : List RelationshipType :=
  [OwnershipByFileOverlapRelationship,
   ContainsRelationship,
   DependencyOfRelationship,
   DescribedByRelationship]

/-- Embeds `artifact.ID` (a stable fingerprint string). -/
abbrev ArtifactID := String

/-- Embeds `artifact.Relationship`.  `From`/`To` are Go interface values that
may be nil, embedded as `Option ArtifactID` (the only observation the code
under consideration makes of an endpoint is nil-ness and its `ID()`).
The field `From` is rendered `fromId` because `from` is a Lean keyword. -/
structure Relationship where
  fromId : Option ArtifactID
  toId : Option ArtifactID
  relType : RelationshipType
  deriving DecidableEq, Repr

/-! ### sbom.SBOM and SBOM.RelationshipsForPackage -/

/-- Embeds the slice `SBOM.Relationships`; the rest of the `sbom.SBOM`
struct does not participate in `RelationshipsForPackage`. -/
structure SBOMRel where
  relationships : List Relationship
  deriving Repr

/-- Embeds the part of `pkg.Package` observed by `RelationshipsForPackage`:
its `ID()`. -/
structure PackageId where
  pid : ArtifactID
  deriving DecidableEq, Repr

/-- Embeds `SBOM.RelationshipsForPackage` (sbom package): if no relationship
types are provided, `AllRelationshipTypes()` is used; relationships with a
nil edge are skipped; then the list is filtered to relationships whose
`From.ID()` equals the package ID and whose type is contained in `rt`. -/
def RelationshipsForPackage (s : SBOMRel) (p : PackageId) (rt : List RelationshipType) :
    List Relationship :=
  let rt' := if rt.isEmpty then AllRelationshipTypes else rt
  s.relationships.filter fun r =>
    match r.fromId, r.toId with
    | some f, some _ => f == p.pid && rt'.any (fun t => r.relType == t)
    | _, _ => false

/-! ### syft/file/coordinates.go, location.go, location_set.go -/

/-- Embeds `file.Coordinates`. -/
structure Coordinates where
  realPath : String
  fileSystemID : String
  deriving DecidableEq, Repr

/-- Embeds `file.LocationData`: the embedded `Coordinates` plus the
`AccessPath` and the opaque stereoscope file reference `ref` (embedded as a
number).  Note that in Go this whole struct — not just the coordinates —
is the key type of the `LocationSet` map; the `hash:"ignore"` tags only
affect `hashstructure` hashing. -/
structure LocationData where
  coordinates : Coordinates
  accessPath : String
  ref : Nat
  deriving DecidableEq, Repr

/-- Embeds `file.LocationMetadata`: the annotations map, as an insertion
ordered association list. -/
structure LocationMetadata where
  annotations : List (String × String)
  deriving DecidableEq, Repr

/-- Embeds `file.Location`. -/
structure Location where
  locationData : LocationData
  locationMetadata : LocationMetadata
  deriving DecidableEq, Repr

/-- Embeds `file.NewLocation`. -/
def NewLocation (realPath : String) : Location :=
  { locationData := { coordinates := { realPath := realPath, fileSystemID := "" },
                      accessPath := realPath, ref := 0 },
    locationMetadata := { annotations := [] } }

/-- Embeds `file.NewVirtualLocation`. -/
def NewVirtualLocation (realPath accessPath : String) : Location :=
  { locationData := { coordinates := { realPath := realPath, fileSystemID := "" },
                      accessPath := accessPath, ref := 0 },
    locationMetadata := { annotations := [] } }

/-- Association list lookup used to embed reads of a Go `map[string]string`. -/
def alookup (l : List (String × String)) (k : String) : Option String :=
  match l with
  | [] => none
  | (k', v) :: rest => if k' = k then some v else alookup rest k

/-- Association list update used to embed writes to a Go `map[string]string`. -/
def aset (l : List (String × String)) (k v : String) : List (String × String) :=
  match l with
  | [] => [(k, v)]
  | (k', v') :: rest => if k' = k then (k, v) :: rest else (k', v') :: aset rest k v

/-- First-biased choice on options, used to state merge results. -/
def oor (a b : Option String) : Option String :=
  match a with
  | some x => some x
  | none => b

/-- Embeds the loop body of `LocationMetadata.merge` (syft/file/location.go):
iterate the other location's annotations; a key present with a different
value produces an error (and the stored value is kept), otherwise the
key/value is written.  The returned list collects the conflicting keys of
the accumulated multierror. -/
def mergeAnnots (acc : List (String × String)) :
    List (String × String) → List (String × String) × List String
  | [] => (acc, [])
  | (k, v) :: rest =>
    match alookup acc k with
    | some v' =>
      if v = v' then
        mergeAnnots (aset acc k v) rest
      else
        let r := mergeAnnots acc rest
        (r.1, k :: r.2)
    | none => mergeAnnots (aset acc k v) rest

/-- Embeds `LocationMetadata.merge`; the second component is the list of
conflicting keys reported through the returned error. -/
def LocationMetadata.merge (m other : LocationMetadata) :
    LocationMetadata × List String :=
  let r := mergeAnnots m.annotations other.annotations
  ({ annotations := r.1 }, r.2)

/-- Embeds the map `LocationSet.set : map[LocationData]LocationMetadata` as
an association list keyed by the full `LocationData`. -/
abbrev LocationSet := List (LocationData × LocationMetadata)

/-- Lookup in the embedded `LocationSet` map. -/
def LocationSet.find (s : LocationSet) (d : LocationData) : Option LocationMetadata :=
  match s with
  | [] => none
  | (d', m) :: rest => if d' = d then some m else LocationSet.find rest d

/-- Replaces the metadata stored for an existing key. -/
def LocationSet.store (s : LocationSet) (d : LocationData) (m : LocationMetadata) :
    LocationSet :=
  match s with
  | [] => [(d, m)]
  | (d', m') :: rest =>
    if d' = d then (d, m) :: rest else (d', m') :: LocationSet.store rest d m

/-- Embeds one iteration of `LocationSet.Add` (syft/file/location_set.go):
if the `LocationData` key is present, merge the metadata (logging a partial
merge warning on conflicts, collected here as the second component),
otherwise insert the location's metadata under its `LocationData` key. -/
def LocationSet.addOne (s : LocationSet) (l : Location) : LocationSet × List String :=
  match s.find l.locationData with
  | some m =>
    let r := m.merge l.locationMetadata
    (s.store l.locationData r.1, r.2)
  | none => (s.store l.locationData l.locationMetadata, [])

/-- Embeds `LocationSet.Add` over its variadic argument list; warnings from
all iterations are concatenated. -/
def LocationSet.add (s : LocationSet) : List Location → LocationSet × List String
  | [] => (s, [])
  | l :: rest =>
    let r := s.addOne l
    let r' := LocationSet.add r.1 rest
    (r'.1, r.2 ++ r'.2)

/-- Embeds `LocationSet.Contains`. -/
def LocationSet.containsLoc (s : LocationSet) (l : Location) : Bool :=
  (s.find l.locationData).isSome

/-! ### syft/cpe -/

/-- Modelled from the spec: `cpe.Source` is a Go string type (the type
itself is referenced but not defined under the provided sources);
`Source.String()` is the identity. -/
abbrev Source := String

/-- Modelled from the spec: the nvd-dictionary-lookup source constant. -/
def NVDDictionaryLookupSource : Source := "nvd-dictionary-lookup"

/-- Modelled from the spec: the declared source constant. -/
def DeclaredSource : Source := "declared"

/-- Modelled from the spec: the generated source constant. -/
def GeneratedSource : Source := "generated"

/-- Modelled from the spec: `cpe.Attributes`, restricted to the five fields
that the provided sources consult (Part, Vendor, Product, Version,
TargetSW). -/
structure Attributes where
  part : String
  vendor : String
  product : String
  version : String
  targetSW : String
  deriving DecidableEq, Repr

/-- Modelled from the spec: quoting of the reserved characters colon and
backslash in an attribute value of a CPE 2.3 bound format string. -/
def escChar (c : Char) : List Char :=
  if c = ':' ∨ c = '\\' then ['\\', c] else [c]

/-- Quoting extended to a value, character by character. -/
def escL : List Char → List Char
  | [] => []
  | c :: cs => escChar c ++ escL cs

/-- The character list of the bound format string: the fixed prefix
"cpe:2.3:" followed by the colon-separated quoted attribute values. -/
def bindL (a : Attributes) : List Char :=
  "cpe:2.3:".data ++ escL a.part.data ++ ':' ::
    (escL a.vendor.data ++ ':' ::
      (escL a.product.data ++ ':' ::
        (escL a.version.data ++ ':' :: escL a.targetSW.data)))

/-- Modelled from the spec: `Attributes.BindToFmtString`, the CPE 2.3 bound
format string of the attributes. -/
def Attributes.bindToFmtString (a : Attributes) : String :=
  String.mk (bindL a)

/-- Lexicographic comparison of character lists, mirroring the Go string
comparison used by the sources (byte-wise less-than); agrees with the Lean
list order (see `charListLt_iff`). -/
def charListLt : List Char → List Char → Bool
  | [], [] => false
  | [], _ :: _ => true
  | _ :: _, [] => false
  | a :: as, b :: bs =>
    if a < b then true
    else if b < a then false
    else charListLt as bs

/-- Embeds `cpe.CPE`: a sourced CPE. -/
structure CPE where
  source : Source
  attributes : Attributes
  deriving DecidableEq, Repr

/-- Embeds `countFieldLength` (syft/cpe/by_specificity.go). -/
def countFieldLength (cpe : Attributes) : Nat :=
  (cpe.part ++ cpe.vendor ++ cpe.product ++ cpe.version ++ cpe.targetSW).length

/-- Embeds `weightedCountForSpecifiedFields` (syft/cpe/by_specificity.go):
Part weighs 2, Vendor 3, Product 4, Version 1, TargetSW 1. -/
def weightedCountForSpecifiedFields (cpe : Attributes) : Nat :=
  (if cpe.part ≠ "" then 2 else 0) +
  (if cpe.vendor ≠ "" then 3 else 0) +
  (if cpe.product ≠ "" then 4 else 0) +
  (if cpe.version ≠ "" then 1 else 0) +
  (if cpe.targetSW ≠ "" then 1 else 0)

/-- Embeds `isMoreSpecific` (syft/cpe/by_specificity.go). -/
def isMoreSpecific (i j : Attributes) : Bool :=
  let iScore := weightedCountForSpecifiedFields i
  let jScore := weightedCountForSpecifiedFields j
  if iScore ≠ jScore then
    decide (iScore > jScore)
  else if countFieldLength i ≠ countFieldLength j then
    decide (countFieldLength i > countFieldLength j)
  else
    charListLt i.bindToFmtString.data j.bindToFmtString.data

/-- Embeds the `getRank` helper of `BySourceThenSpecificity.Less`
(syft/cpe/by_source_then_specificity.go): nvd-dictionary-lookup 1,
declared 2, generated 3, everything else 4. -/
def getRank (s : Source) : Nat :=
  if s = NVDDictionaryLookupSource then 1
  else if s = DeclaredSource then 2
  else if s = GeneratedSource then 3
  else 4

/-- Embeds `BySourceThenSpecificity.Less` as a binary comparison on the two
compared elements. -/
def bySourceThenSpecificityLess (x y : CPE) : Bool :=
  if getRank x.source ≠ getRank y.source then
    decide (getRank x.source < getRank y.source)
  else
    isMoreSpecific x.attributes y.attributes

/-- The Go `sort.Sort` postcondition relation for
`BySourceThenSpecificity`: y is not strictly less than x. -/
def cpeLE (x y : CPE) : Prop := bySourceThenSpecificityLess y x = false

instance : DecidableRel cpeLE := fun x y =>
  inferInstanceAs (Decidable (bySourceThenSpecificityLess y x = false))

/-- Embeds the `key` closure of `cpe.Merge` (syft/cpe/merge_cpes.go):
source string and bound format string joined by a colon. -/
def cpeKey (c : CPE) : String :=
  c.source ++ ":" ++ c.attributes.bindToFmtString

/-- Embeds a write `dedupe[key] = s` to the Go dedupe map, as an in-place
update of an insertion-ordered association list. -/
def upsert (k : String) (c : CPE) : List (String × CPE) → List (String × CPE)
  | [] => [(k, c)]
  | (k', c') :: rest =>
    if k' = k then (k, c) :: rest else (k', c') :: upsert k c rest

/-- Embeds the two dedupe loops of `cpe.Merge`: every element of the input
list is written to the map under its key, later writes replacing earlier
ones. -/
def dedupeCPEs (m : List (String × CPE)) : List CPE → List (String × CPE)
  | [] => m
  | c :: rest => dedupeCPEs (upsert (cpeKey c) c m) rest

/-- Lookup in the embedded dedupe map. -/
def lookupCPE (m : List (String × CPE)) (k : String) : Option CPE :=
  match m with
  | [] => none
  | (k', c) :: rest => if k' = k then some c else lookupCPE rest k

/-- Embeds `cpe.Merge` (syft/cpe/merge_cpes.go): dedupe `a` then `b` into
the map, collect the values and sort by `BySourceThenSpecificity`.  The Go
map iterates in unspecified order before `sort.Sort`; the embedding reads
the values in first-insertion order, which is one of those orders, and
sorts with an insertion sort — the claims proved about the result are
invariant under which permutation the sorting routine consumed. -/
def Merge (a b : List CPE) : List CPE :=
  List.insertionSort cpeLE ((dedupeCPEs [] (a ++ b)).map Prod.snd)

/-- The identity of a sourced CPE as the spec states it: the pair of the
source and the bound format string. -/
def cpePair (c : CPE) : String × String :=
  (c.source, c.attributes.bindToFmtString)

/-- Analysis helper: scans a character list left to right, tracking whether
the previous character opened a quoting backslash, and counts the unquoted
colons. -/
def scanSep : Bool → List Char → Bool × Nat
  | e, [] => (e, 0)
  | true, _ :: cs => scanSep false cs
  | false, c :: cs =>
    if c = '\\' then scanSep true cs
    else
      let r := scanSep false cs
      (r.1, if c = ':' then r.2 + 1 else r.2)

/-- Analysis helper: recognizes a suffix that looks like a bound format
string: it starts with "cpe:" and scans to exactly six unquoted colons. -/
def critB (ys : List Char) : Bool :=
  decide (ys.take 4 = ['c', 'p', 'e', ':'] ∧ scanSep false ys = (false, 6))

/-- Analysis helper: splits a dedupe key at the first colon whose suffix is
recognized by `critB`. -/
def findKeySplit : List Char → Option (List Char × List Char)
  | [] => none
  | c :: rest =>
    if c = ':' ∧ critB rest = true then some ([], rest)
    else
      match findKeySplit rest with
      | some (pre, ys) => some (c :: pre, ys)
      | none => none

/-- Analysis helper: recovers the (source, bound string) pair from a dedupe
key. -/
def pairKeyInv (k : String) : String × String :=
  match findKeySplit k.data with
  | some (pre, ys) => (String.mk pre, String.mk ys)
  | none => ("", "")


/-! ### syft/sbom/format.go and the format collections (part_006, decoders_collection.go) -/

/-- Embeds `sbom.AnyVersion`. -/
def AnyVersion : String := ""

/-- An opaque reader value: the collections only pass it through. -/
abbrev Reader := String

/-- Embeds the part of `sbom.FormatEncoder` that `EncoderCollection.Get`
observes: `ID()`, `Aliases()` and `Version()`. -/
structure FormatEncoder where
  id : String
  aliases : List String
  version : String
  deriving DecidableEq, Repr

/-- Embeds `cleanFormatName` (format package): remove every "-" and "_",
then lowercase. -/
def cleanFormatName (name : String) : String :=
  String.mk ((name.data.filter
    (fun c => decide (c ≠ '-' ∧ c ≠ '_'))).map Char.toLower)

/-- Analysis helper: semantics of a ".*" wildcard — try the continuation on
every suffix of the subject. -/
def vstarAux (f : List Char → Bool) : List Char → Bool
  | [] => f []
  | c :: vs => f (c :: vs) || vstarAux f vs

/-- Embeds the regular expression built by `versionMatches`: the match
expression with "." taken literally and "*" turned into ".*", anchored and
followed by "(\..*)*" — a trailing remainder must be empty or start with a
dot.  The interpretation is exact for match strings that contain no other
regular-expression metacharacters (the documented name\@version inputs). -/
def vmatch : List Char → List Char → Bool
  | [] => fun v =>
    match v with
    | [] => true
    | c :: _ => c == '.'
  | p :: ps =>
    let rest := vmatch ps
    if p = '*' then vstarAux rest
    else fun v =>
      match v with
      | [] => false
      | c :: vs => p == c && rest vs

/-- Embeds `versionMatches` (format package). -/
def versionMatches (version matchExpr : String) : Bool :=
  if version = AnyVersion ∨ matchExpr = AnyVersion then true
  else vmatch matchExpr.data version.data

/-- The Bool match condition of the `EncoderCollection.Get` loop for one
encoder: some declared name (ID or alias) cleans to the cleaned requested
name, and the encoder version matches the requested version. -/
def encMatchB (nm ver : String) (f : FormatEncoder) : Bool :=
  (f.id :: f.aliases).any (fun n => cleanFormatName n == nm) &&
    versionMatches f.version ver

/-- Embeds the loop of `EncoderCollection.Get` (part_006): every encoder
whose cleaned name matches and whose version matches is considered, and it
replaces the current best match when its version is strictly greater
(Go string comparison). -/
def getLoopEnc (nm ver : String) (acc : Option FormatEncoder) :
    List FormatEncoder → Option FormatEncoder
  | [] => acc
  | f :: rest =>
    if encMatchB nm ver f then
      match acc with
      | none => getLoopEnc nm ver (some f) rest
      | some g =>
        if charListLt g.version.data f.version.data then getLoopEnc nm ver (some f) rest
        else getLoopEnc nm ver (some g) rest
    else getLoopEnc nm ver acc rest

/-- Embeds `EncoderCollection.Get`: the requested name is cleaned once and
the loop runs over the collection. -/
def EncoderCollection.get (es : List FormatEncoder) (name version : String) :
    Option FormatEncoder :=
  getLoopEnc (cleanFormatName name) version none es

/-- The match condition as a proposition over the original requested
name/version. -/
def encMatches (name version : String) (f : FormatEncoder) : Prop :=
  (∃ n ∈ f.id :: f.aliases, cleanFormatName n = cleanFormatName name) ∧
    versionMatches f.version version = true

/-- Embeds the part of `sbom.FormatDecoder` that
`DecoderCollection.Decode` observes: `Identify` and `Decode`, over an
opaque reader; the decoder's own decode result is opaque (`α`). -/
structure FormatDecoder (α : Type) where
  identify : Reader → String × String
  decode : Reader → α

/-- The four outcomes of `DecoderCollection.Decode`. -/
inductive DecodeOutcome (α : Type) where
  | noBytes
  | decoded (res : α)
  | versionUnsupported (id : String)
  | unrecognized
  deriving DecidableEq, Repr

/-- Embeds the decoder loop of `DecoderCollection.Decode`
(syft/format/decoders_collection.go): the first decoder identifying both a
non-empty id and version is run; decoders identifying only an id update
`bestID`. -/
def decodeLoop {α : Type} (r : Reader) (best : String) :
    List (FormatDecoder α) → DecodeOutcome α
  | [] =>
    if best ≠ "" then DecodeOutcome.versionUnsupported best
    else DecodeOutcome.unrecognized
  | d :: rest =>
    let idv := d.identify r
    if idv.1 = "" ∨ idv.2 = "" then
      decodeLoop r (if idv.1 ≠ "" then idv.1 else best) rest
    else
      DecodeOutcome.decoded (d.decode r)

/-- Embeds `DecoderCollection.Decode`, including the nil-reader check. -/
def DecoderCollection.decode {α : Type} (ds : List (FormatDecoder α))
    (reader : Option Reader) : DecodeOutcome α :=
  match reader with
  | none => DecodeOutcome.noBytes
  | some r => decodeLoop r "" ds


/-! ### the executable cataloger (part_012) -/

/-- Embeds `file.ExecutableFormat`; modelled from the spec: format is one
of elf, macho, pe. -/
inductive ExecutableFormat where
  | elf
  | macho
  | pe
  deriving DecidableEq, Repr

/-- Embeds `binary.BigEndian.Uint32` applied to the head of a byte slice. -/
def beU32 (b : List Nat) : Nat :=
  b.getD 0 0 * 16777216 + b.getD 1 0 * 65536 + b.getD 2 0 * 256 + b.getD 3 0

/-- Embeds `binary.LittleEndian.Uint32` applied to the head of a byte
slice. -/
def leU32 (b : List Nat) : Nat :=
  b.getD 3 0 * 16777216 + b.getD 2 0 * 65536 + b.getD 1 0 * 256 + b.getD 0 0

/-- Embeds `classOrMachOFat` (part_012): at least 8 bytes and the
0xCAFEBABE prefix. -/
def classOrMachOFat (b : List Nat) : Bool :=
  decide (8 ≤ b.length) && decide (b.take 4 = [0xCA, 0xFE, 0xBA, 0xBE])

/-- Embeds `isMacho` (part_012); `macho.Magic32 = 0xFEEDFACE` and
`macho.Magic64 = 0xFEEDFACF` are the debug/macho constants (modelled from
the spec). -/
def isMacho (b : List Nat) : Bool :=
  if classOrMachOFat b && decide (b.getD 7 0 < 20) then true
  else if b.length < 4 then false
  else
    decide (beU32 b = 0xFEEDFACE) || decide (leU32 b = 0xFEEDFACE) ||
      decide (beU32 b = 0xFEEDFACF) || decide (leU32 b = 0xFEEDFACF)

/-- Embeds `isPE` (part_012): the "MZ" prefix. -/
def isPE (b : List Nat) : Bool :=
  decide (b.take 2 = [0x4D, 0x5A])

/-- Embeds `isELF` (part_012): the 0x7F "ELF" prefix. -/
def isELF (b : List Nat) : Bool :=
  decide (b.take 4 = [0x7F, 0x45, 0x4C, 0x46])

/-- Embeds `findExecutableFormat` (part_012): read the first 512 bytes
(an error if fewer are available) and classify by magic number — Mach-O
first, then PE, then ELF, otherwise no format. -/
def findExecutableFormat (fileBytes : List Nat) : Except String (Option ExecutableFormat) :=
  if fileBytes.length < 512 then
    Except.error "unable to read enough bytes to determine executable format"
  else
    let buf := fileBytes.take 512
    if isMacho buf then Except.ok (some ExecutableFormat.macho)
    else if isPE buf then Except.ok (some ExecutableFormat.pe)
    else if isELF buf then Except.ok (some ExecutableFormat.elf)
    else Except.ok none


/-! ### zip extraction path safety (part_017) -/

/-- Splits a character list on slashes (the components of a slash path). -/
def splitSlashAux (cur : List Char) : List Char → List (List Char)
  | [] => [cur.reverse]
  | c :: cs =>
    if c = '/' then cur.reverse :: splitSlashAux [] cs
    else splitSlashAux (c :: cur) cs

/-- Joins path components with slashes. -/
def joinSlash : List (List Char) → List Char
  | [] => []
  | [x] => x
  | x :: xs => x ++ '/' :: joinSlash xs

/-- Embeds `filepath.Clean` for slash-separated (Unix) paths, as the
structural form of the Go algorithm: empty and "." components vanish,
".." pops the previous component, leading ".." components are kept on
relative paths and dropped at the root, an empty result becomes ".". -/
def cleanL (p : List Char) : List Char :=
  if p = [] then ['.']
  else
    let rooted := decide (p.take 1 = ['/'])
    let comps := (splitSlashAux [] p).filter
      (fun c => decide (c ≠ [] ∧ c ≠ ['.']))
    let out := comps.foldl
      (fun acc c =>
        if c = ['.', '.'] then
          match acc with
          | [] => if rooted then [] else [['.', '.']]
          | a :: rest => if a = ['.', '.'] then c :: a :: rest else rest
        else c :: acc) []
    let core := joinSlash out.reverse
    if rooted then '/' :: core
    else if core = [] then ['.'] else core

/-- `filepath.Clean` on strings. -/
def cleanPath (p : String) : String :=
  String.mk (cleanL p.data)

/-- Embeds `filepath.Join`: drop leading empty elements, join the rest
with slashes and clean the result. -/
def goJoin (elems : List String) : String :=
  match elems with
  | [] => ""
  | e :: rest =>
    if e = "" then goJoin rest
    else String.mk (cleanL (joinSlash ((e :: rest).map String.data)))

deriving instance DecidableEq for Except

/-- Embeds `errZipSlipDetected`. -/
structure ZipSlip where
  rootPath : String
  joinArgs : List String
  deriving DecidableEq, Repr

/-- Embeds `safeJoin` (part_017): join the root with the destinations,
clean the result, and reject it when the cleaned join does not have the
cleaned root as a string prefix (`strings.HasPrefix`); on success the
uncleaned join result is returned. -/
def safeJoin (pfx : String) (dest : List String) : Except ZipSlip String :=
  let joinResult := goJoin (pfx :: dest)
  let cleanJoinResult := cleanPath joinResult
  if (cleanPath pfx).data.isPrefixOf cleanJoinResult.data then
    Except.ok joinResult
  else
    Except.error { rootPath := pfx, joinArgs := dest }

/-- Embeds the `UnzipToDir` visitor (part_017) over the archive entry
names: each entry is extracted to its `safeJoin` path, and an entry whose
join is rejected extracts nothing and yields the zip-slip error. -/
def UnzipToDir (entryNames : List String) (targetDir : String) :
    List (Except ZipSlip String) :=
  entryNames.map (fun n => safeJoin targetDir [n])


/-! ### ZIP start-offset discovery (syft/event/parsers/parsers.go, file part) -/

/-- Errors of the start-offset discovery. -/
inductive ZipErr where
  | errFormat
  | readFailed
  | dir64EndBad
  deriving DecidableEq, Repr

/-- Embeds `io.ReaderAt.ReadAt`: a full read of `len` bytes at `off`, an
error when the file is too short. -/
def readAtF (file : List Nat) (off len : Nat) : Option (List Nat) :=
  if off + len ≤ file.length then some ((file.drop off).take len) else none

/-- Embeds `readBuf.uint16` at a byte offset (little endian). -/
def u16 (b : List Nat) (off : Nat) : Nat :=
  b.getD off 0 + 256 * b.getD (off + 1) 0

/-- Embeds `readBuf.uint32` at a byte offset (little endian). -/
def u32 (b : List Nat) (off : Nat) : Nat :=
  u16 b off + 65536 * u16 b (off + 2)

/-- Embeds `readBuf.uint64` at a byte offset (little endian). -/
def u64 (b : List Nat) (off : Nat) : Nat :=
  u32 b off + 4294967296 * u32 b (off + 4)

/-- Embeds `directoryEnd` (the end-of-central-directory record fields). -/
structure DirectoryEnd where
  diskNbr : Nat
  dirDiskNbr : Nat
  dirRecordsThisDisk : Nat
  directoryRecords : Nat
  directorySize : Nat
  directoryOffset : Nat
  deriving DecidableEq, Repr

/-- The per-index check of `findSignatureInBlock`: the PK 05 06 signature
and a comment length that fits in the block. -/
def sigCheck (b : List Nat) (i : Nat) : Bool :=
  decide (b.getD i 0 = 80 ∧ b.getD (i + 1) 0 = 75 ∧
    b.getD (i + 2) 0 = 5 ∧ b.getD (i + 3) 0 = 6 ∧
    b.getD (i + 20) 0 + 256 * b.getD (i + 21) 0 + 22 + i ≤ b.length)

/-- The downward scan of `findSignatureInBlock`. -/
def sigLoop (b : List Nat) : Nat → Option Nat
  | 0 => if sigCheck b 0 then some 0 else none
  | i + 1 => if sigCheck b (i + 1) then some (i + 1) else sigLoop b i

/-- Embeds `findSignatureInBlock` (parsers.go): scan from the end of the
block for the directory-end signature. -/
def findSignatureInBlock (b : List Nat) : Option Nat :=
  if b.length < 22 then none else sigLoop b (b.length - 22)

/-- Embeds `findDirectory64End` (parsers.go): read the zip64 locator just
before the directory end; `none` when absent or not a valid zip64 file. -/
def findDirectory64End (file : List Nat) (directoryEndOffset : Nat) :
    Except ZipErr (Option Nat) :=
  if directoryEndOffset < 20 then Except.ok none
  else
    match readAtF file (directoryEndOffset - 20) 20 with
    | none => Except.error ZipErr.readFailed
    | some buf =>
      if u32 buf 0 ≠ 117853008 then Except.ok none
      else if u32 buf 4 ≠ 0 then Except.ok none
      else if u32 buf 16 ≠ 1 then Except.ok none
      else Except.ok (some (u64 buf 8))

/-- Embeds `readDirectory64End` (parsers.go): read the zip64 directory end
record and replace the directory-end fields. -/
def readDirectory64End (file : List Nat) (offset : Nat) (d : DirectoryEnd) :
    Except ZipErr DirectoryEnd :=
  match readAtF file offset 56 with
  | none => Except.error ZipErr.readFailed
  | some buf =>
    if u32 buf 0 ≠ 101075792 then Except.error ZipErr.dir64EndBad
    else
      Except.ok
        { diskNbr := u32 buf 16
          dirDiskNbr := u32 buf 20
          dirRecordsThisDisk := u64 buf 24
          directoryRecords := u64 buf 32
          directorySize := u64 buf 40
          directoryOffset := u64 buf 48 }

/-- The directory-end parse and start-offset computation that
`findArchiveStartOffset` performs once the signature block is found:
parse the record, substitute the ZIP64 record when a sentinel field
indicates ZIP64, compute `directoryEndOffset − directorySize −
directoryOffset` in uint64 arithmetic, and validate `directoryOffset`
against the file size. -/
def parseDirectoryEnd (file buf : List Nat) (directoryEndOffset : Nat) :
    Except ZipErr Nat :=
  let size := file.length
  let d : DirectoryEnd :=
    { diskNbr := u16 buf 4
      dirDiskNbr := u16 buf 6
      dirRecordsThisDisk := u16 buf 8
      directoryRecords := u16 buf 10
      directorySize := u32 buf 12
      directoryOffset := u32 buf 16 }
  let step : Except ZipErr (DirectoryEnd × Nat) :=
    if d.directoryRecords = 65535 ∨ d.directorySize = 65535 ∨
        d.directoryOffset = 4294967295 then
      match findDirectory64End file directoryEndOffset with
      | Except.error e => Except.error e
      | Except.ok none => Except.ok (d, directoryEndOffset)
      | Except.ok (some p) =>
        match readDirectory64End file p d with
        | Except.error e => Except.error e
        | Except.ok d64 => Except.ok (d64, p)
    else Except.ok (d, directoryEndOffset)
  match step with
  | Except.error e => Except.error e
  | Except.ok (dEnd, endOff) =>
    let startOfArchive :=
      (endOff + 36893488147419103232 - dEnd.directorySize - dEnd.directoryOffset) %
        18446744073709551616
    if 9223372036854775808 ≤ dEnd.directoryOffset ∨ size ≤ dEnd.directoryOffset then
      Except.error ZipErr.errFormat
    else Except.ok startOfArchive

/-- Embeds `findArchiveStartOffset` (parsers.go): look for the
directory-end signature in the last 1 KiB, then in the last 65 KiB; on a
match parse the record (with ZIP64 substitution) and return the archive
start offset. -/
def findArchiveStartOffset (file : List Nat) : Except ZipErr Nat :=
  let size := file.length
  let attempt := fun (bLen : Nat) =>
    let buf := file.drop (size - bLen)
    match findSignatureInBlock buf with
    | some pp => some (buf.drop pp, size - bLen + pp)
    | none => none
  let bLen1 := min 1024 size
  let found :=
    match attempt bLen1 with
    | some r => some r
    | none => if bLen1 = size then none else attempt (min 66560 size)
  match found with
  | none => Except.error ZipErr.errFormat
  | some (buf, directoryEndOffset) => parseDirectoryEnd file buf directoryEndOffset

/-- A plain end-of-central-directory record with the given field values
and an empty comment, used to state the boundary behavior. -/
def mkEOCD (records dirSize dirOffset : Nat) : List Nat :=
  [80, 75, 5, 6,
   0, 0, 0, 0, 0, 0,
   records % 256, records / 256 % 256,
   dirSize % 256, dirSize / 256 % 256, dirSize / 65536 % 256, dirSize / 16777216 % 256,
   dirOffset % 256, dirOffset / 256 % 256, dirOffset / 65536 % 256,
   dirOffset / 16777216 % 256,
   0, 0]

/- ===================== THEOREMS ===================== -/

/-- Helper: `charListLt` is the lexicographic list order on characters. -/
theorem charListLt_iff : ∀ (l1 l2 : List Char), charListLt l1 l2 = true ↔ l1 < l2
  | [], [] => by
    constructor
    · intro h
      exact absurd h (by decide)
    · intro h
      cases h
  | [], b :: bs => by
    constructor
    · intro _
      exact List.Lex.nil
    · intro _
      rfl
  | a :: as, [] => by
    constructor
    · intro h
      simp [charListLt] at h
    · intro h
      cases h
  | a :: as, b :: bs => by
    simp only [charListLt]
    by_cases hab : a < b
    · rw [if_pos hab]
      constructor
      · intro _
        exact List.Lex.rel hab
      · intro _
        rfl
    · rw [if_neg hab]
      by_cases hba : b < a
      · rw [if_pos hba]
        constructor
        · intro h
          simp at h
        · intro h
          cases h with
          | cons h1 => exact absurd hba (lt_irrefl a)
          | rel h1 => exact absurd h1 hab
      · rw [if_neg hba]
        have hab' : a = b := le_antisymm (not_lt.mp hba) (not_lt.mp hab)
        subst hab'
        rw [charListLt_iff as bs]
        constructor
        · intro h
          exact List.Lex.cons h
        · intro h
          cases h with
          | cons h1 => exact h1
          | rel h1 => exact absurd h1 hab

/-- Helper: `charListLt` on the character data is the string order. -/
theorem charListLt_str_iff (s t : String) : charListLt s.data t.data = true ↔ s < t := by
  rw [String.lt_iff_toList_lt]
  exact charListLt_iff s.data t.data

/-! ### C10 -/

/-- C10: `RelationshipsForPackage` with no relationship-type arguments
filters against `AllRelationshipTypes()`, which contains only
ownership-by-file-overlap, contains, dependency-of and described-by — so an
unfiltered call never returns an evident-by relationship, even though
evident-by is one of the five declared relationship types. -/
theorem relationshipsForPackage_unfiltered_never_evident_by
    (s : SBOMRel) (p : PackageId) (r : Relationship)
    (hr : r ∈ RelationshipsForPackage s p []) :
    r.relType ≠ EvidentByRelationship ∧
      AllRelationshipTypes = [OwnershipByFileOverlapRelationship,
        ContainsRelationship, DependencyOfRelationship, DescribedByRelationship] := by
  refine ⟨?_, rfl⟩
  intro hcontra
  simp only [RelationshipsForPackage, List.isEmpty_nil] at hr
  have h := List.of_mem_filter hr
  cases hf : r.fromId with
  | none => rw [hf] at h; simp at h
  | some f =>
    cases ht : r.toId with
    | none => rw [hf, ht] at h; simp at h
    | some t =>
      rw [hf, ht] at h
      simp only [Bool.and_eq_true, List.any_eq_true] at h
      obtain ⟨-, ty, hty, heq⟩ := h
      have hrt : r.relType = ty := by
        exact beq_iff_eq.mp heq
      rw [hcontra] at hrt
      rw [← hrt] at hty
      exact absurd hty (by decide)

/-- C10 witness: a contains-relationship from a package is returned by an
unfiltered call, and the theorem applies to it. -/
theorem relationshipsForPackage_unfiltered_never_evident_by_witness :
    (⟨some "p1", some "f1", ContainsRelationship⟩ : Relationship).relType ≠
        EvidentByRelationship ∧
      AllRelationshipTypes = [OwnershipByFileOverlapRelationship,
        ContainsRelationship, DependencyOfRelationship, DescribedByRelationship] :=
  relationshipsForPackage_unfiltered_never_evident_by
    ⟨[⟨some "p1", some "f1", ContainsRelationship⟩]⟩ ⟨"p1"⟩
    ⟨some "p1", some "f1", ContainsRelationship⟩ (by decide)

/-! ### C1 -/

/-- C1 counterexample: two locations built by the source constructors with
equal coordinates but different access paths do not collapse: the Go map of
a `LocationSet` is keyed by the whole `LocationData` (coordinates AND
access path AND file reference), so adding both yields two members. -/
theorem locationSet_add_not_by_coordinates_alone :
    (NewLocation "/a").locationData.coordinates =
        (NewVirtualLocation "/a" "/sym").locationData.coordinates ∧
      (LocationSet.add [] [NewLocation "/a", NewVirtualLocation "/a" "/sym"]).1.length = 2 := by
  decide

/-- C1 amended: membership and deduplication in a `LocationSet` are
determined by the whole `LocationData` (coordinates, access path and file
reference); annotations never affect whether two locations collapse; two
locations with equal `LocationData` yield exactly one member and two
locations with different `LocationData` (for example equal coordinates but
different access paths) stay distinct. -/
theorem locationSet_add_dedup_by_locationData (l₁ l₂ : Location) :
    (l₁.locationData = l₂.locationData →
      (LocationSet.add [] [l₁, l₂]).1.length = 1) ∧
    (l₁.locationData ≠ l₂.locationData →
      (LocationSet.add [] [l₁, l₂]).1.length = 2) ∧
    (∀ s : LocationSet, l₁.locationData = l₂.locationData →
      (s.containsLoc l₁ = s.containsLoc l₂)) := by
  refine ⟨?_, ?_, ?_⟩
  · intro h
    simp [LocationSet.add, LocationSet.addOne, LocationSet.find, LocationSet.store, ← h]
  · intro h
    simp [LocationSet.add, LocationSet.addOne, LocationSet.find, LocationSet.store, h]
  · intro s h
    simp [LocationSet.containsLoc, h]

/-- C1 amended witness: a pair with equal location data (differing only in
annotations) collapses to one member; a pair with equal coordinates but
different access paths yields two members. -/
theorem locationSet_add_dedup_by_locationData_witness :
    (LocationSet.add []
      [NewLocation "/a",
       { locationData := (NewLocation "/a").locationData,
         locationMetadata := { annotations := [("k", "v")] } }]).1.length = 1 ∧
    (LocationSet.add [] [NewLocation "/a", NewVirtualLocation "/a" "/sym"]).1.length = 2 :=
  ⟨(locationSet_add_dedup_by_locationData (NewLocation "/a")
      { locationData := (NewLocation "/a").locationData,
        locationMetadata := { annotations := [("k", "v")] } }).1 (by decide),
   (locationSet_add_dedup_by_locationData (NewLocation "/a")
      (NewVirtualLocation "/a" "/sym")).2.1 (by decide)⟩

/-! ### C8 -/

/-- Helper: updating one key leaves lookups of other keys unchanged. -/
theorem alookup_aset_ne (l : List (String × String)) (k k' v : String) (h : k' ≠ k) :
    alookup (aset l k v) k' = alookup l k' := by
  induction l with
  | nil =>
    simp only [aset, alookup]
    rw [if_neg (Ne.symm h)]
  | cons p rest ih =>
    obtain ⟨a, b⟩ := p
    simp only [aset]
    by_cases hk : a = k
    · rw [if_pos hk]
      subst hk
      simp only [alookup]
      rw [if_neg (Ne.symm h), if_neg (Ne.symm h)]
    · rw [if_neg hk]
      simp only [alookup]
      rw [ih]

/-- Helper: updating a key makes its lookup return the new value. -/
theorem alookup_aset_self (l : List (String × String)) (k v : String) :
    alookup (aset l k v) k = some v := by
  induction l with
  | nil => simp [aset, alookup]
  | cons p rest ih =>
    obtain ⟨a, b⟩ := p
    simp only [aset]
    by_cases hk : a = k
    · rw [if_pos hk]
      simp only [alookup]
      simp only [if_true]
    · rw [if_neg hk]
      simp only [alookup]
      rw [if_neg hk]
      exact ih

/-- Helper: the merged annotation map behaves like the stored map with the
incoming map as fallback — the first-seen (stored) value always wins. -/
theorem mergeAnnots_lookup (l acc : List (String × String)) (k : String) :
    alookup (mergeAnnots acc l).1 k = oor (alookup acc k) (alookup l k) := by
  induction l generalizing acc with
  | nil => cases h : alookup acc k <;> simp [mergeAnnots, alookup, oor, h]
  | cons p rest ih =>
    obtain ⟨k', v⟩ := p
    have htail : ∀ hk : ¬ k' = k, alookup ((k', v) :: rest) k = alookup rest k := by
      intro hk
      simp [alookup, hk]
    have hhead : ∀ hk : k' = k, alookup ((k', v) :: rest) k = some v := by
      intro hk
      simp [alookup, hk]
    cases hacc : alookup acc k' with
    | some w =>
      by_cases hv : v = w
      · subst hv
        simp only [mergeAnnots, hacc, if_true]
        rw [ih]
        by_cases hk : k' = k
        · subst hk
          rw [alookup_aset_self, hacc, hhead rfl]
          simp [oor]
        · rw [alookup_aset_ne _ _ _ _ (Ne.symm hk), htail hk]
      · simp only [mergeAnnots, hacc]
        rw [if_neg hv]
        dsimp only
        rw [ih]
        by_cases hk : k' = k
        · subst hk
          rw [hacc, hhead rfl]
          simp [oor]
        · rw [htail hk]
    | none =>
      simp only [mergeAnnots, hacc]
      rw [ih]
      by_cases hk : k' = k
      · subst hk
        rw [alookup_aset_self, hacc, hhead rfl]
        simp [oor]
      · rw [alookup_aset_ne _ _ _ _ (Ne.symm hk), htail hk]

/-- Helper: a genuine value conflict for key `k` is reported in the
conflict list of the merge. -/
theorem mergeAnnots_conflict_mem (l acc : List (String × String)) (k v₁ v₂ : String)
    (hacc : alookup acc k = some v₁) (hl : alookup l k = some v₂) (hne : v₁ ≠ v₂) :
    k ∈ (mergeAnnots acc l).2 := by
  induction l generalizing acc with
  | nil => simp [alookup] at hl
  | cons p rest ih =>
    obtain ⟨k', v⟩ := p
    by_cases hk : k' = k
    · subst hk
      have hv : v = v₂ := by simpa [alookup] using hl
      subst hv
      have hvne : ¬ v = v₁ := fun hh => hne hh.symm
      simp only [mergeAnnots, hacc]
      rw [if_neg hvne]
      dsimp only
      simp
    · have hl' : alookup rest k = some v₂ := by simpa [alookup, hk] using hl
      have hset : alookup (aset acc k' v) k = some v₁ := by
        rw [alookup_aset_ne _ _ _ _ (Ne.symm hk)]; exact hacc
      cases hacc' : alookup acc k' with
      | some w =>
        by_cases hv : v = w
        · subst hv
          simp only [mergeAnnots, hacc', if_true]
          exact ih _ hset hl'
        · simp only [mergeAnnots, hacc']
          rw [if_neg hv]
          dsimp only
          exact List.mem_cons_of_mem _ (ih _ hacc hl')
      | none =>
        simp only [mergeAnnots, hacc']
        exact ih _ hset hl'

/-- C8 counterexample: equal coordinates alone do not trigger the
annotation merge.  Two locations with equal `Coordinates` but different
access paths carrying conflicting values for the same annotation key land
in different slots of the `LocationSet` map: adding both yields two
members, each keeping its own value, and no partial-merge warning is
emitted. -/
theorem locationSet_add_equal_coordinates_no_warning :
    ((⟨⟨⟨"/a", ""⟩, "/a", 0⟩, ⟨[("a", "1")]⟩⟩ : Location)).locationData.coordinates =
        ((⟨⟨⟨"/a", ""⟩, "/sym", 0⟩, ⟨[("a", "9")]⟩⟩ : Location)).locationData.coordinates ∧
      (LocationSet.add [] [⟨⟨⟨"/a", ""⟩, "/a", 0⟩, ⟨[("a", "1")]⟩⟩,
          ⟨⟨⟨"/a", ""⟩, "/sym", 0⟩, ⟨[("a", "9")]⟩⟩]).2 = [] ∧
      (LocationSet.add [] [⟨⟨⟨"/a", ""⟩, "/a", 0⟩, ⟨[("a", "1")]⟩⟩,
          ⟨⟨⟨"/a", ""⟩, "/sym", 0⟩, ⟨[("a", "9")]⟩⟩]).1 =
        [(⟨⟨"/a", ""⟩, "/a", 0⟩, ⟨[("a", "1")]⟩),
         (⟨⟨"/a", ""⟩, "/sym", 0⟩, ⟨[("a", "9")]⟩)] := by
  decide

/-- C8 amended: the annotation merge happens only on a collision of the
whole `LocationData` key (equal coordinates alone with a different access
path land in a different slot, with no merge and no warning).  Adding two
locations with equal `LocationData` but conflicting annotation values for
a key keeps the first-seen value, reports the conflict through the
partial-merge warning, and merges keys without conflict into the stored
metadata (stored value first, incoming as fallback). -/
theorem locationSet_add_conflicting_annotations
    (d : LocationData) (m₁ m₂ : LocationMetadata) (k v₁ v₂ : String)
    (h₁ : alookup m₁.annotations k = some v₁)
    (h₂ : alookup m₂.annotations k = some v₂)
    (hne : v₁ ≠ v₂) :
    (LocationSet.add [] [⟨d, m₁⟩, ⟨d, m₂⟩]).1 =
        [(d, ⟨(mergeAnnots m₁.annotations m₂.annotations).1⟩)] ∧
      alookup (mergeAnnots m₁.annotations m₂.annotations).1 k = some v₁ ∧
      k ∈ (LocationSet.add [] [⟨d, m₁⟩, ⟨d, m₂⟩]).2 ∧
      (∀ k', alookup (mergeAnnots m₁.annotations m₂.annotations).1 k' =
        oor (alookup m₁.annotations k') (alookup m₂.annotations k')) := by
  have hset : (LocationSet.add [] [⟨d, m₁⟩, ⟨d, m₂⟩]).1 =
      [(d, ⟨(mergeAnnots m₁.annotations m₂.annotations).1⟩)] := by
    simp [LocationSet.add, LocationSet.addOne, LocationSet.find, LocationSet.store,
      LocationMetadata.merge]
  have hwarn : (LocationSet.add [] [⟨d, m₁⟩, ⟨d, m₂⟩]).2 =
      (mergeAnnots m₁.annotations m₂.annotations).2 := by
    simp [LocationSet.add, LocationSet.addOne, LocationSet.find, LocationSet.store,
      LocationMetadata.merge]
  refine ⟨hset, ?_, ?_, ?_⟩
  · rw [mergeAnnots_lookup, h₁]
    simp [oor]
  · rw [hwarn]
    exact mergeAnnots_conflict_mem _ _ _ _ _ h₁ h₂ hne
  · intro k'
    exact mergeAnnots_lookup _ _ _

/-- C8 witness: a concrete conflicting merge. -/
theorem locationSet_add_conflicting_annotations_witness :
    (LocationSet.add [] [⟨(NewLocation "/a").locationData, ⟨[("a", "1"), ("b", "2")]⟩⟩,
        ⟨(NewLocation "/a").locationData, ⟨[("a", "9"), ("c", "3")]⟩⟩]).1 =
        [((NewLocation "/a").locationData,
          ⟨(mergeAnnots [("a", "1"), ("b", "2")] [("a", "9"), ("c", "3")]).1⟩)] ∧
      alookup (mergeAnnots [("a", "1"), ("b", "2")] [("a", "9"), ("c", "3")]).1 "a" =
        some "1" ∧
      "a" ∈ (LocationSet.add []
        [⟨(NewLocation "/a").locationData, ⟨[("a", "1"), ("b", "2")]⟩⟩,
         ⟨(NewLocation "/a").locationData, ⟨[("a", "9"), ("c", "3")]⟩⟩]).2 ∧
      (∀ k', alookup (mergeAnnots [("a", "1"), ("b", "2")] [("a", "9"), ("c", "3")]).1 k' =
        oor (alookup [("a", "1"), ("b", "2")] k') (alookup [("a", "9"), ("c", "3")] k')) :=
  locationSet_add_conflicting_annotations (NewLocation "/a").locationData
    ⟨[("a", "1"), ("b", "2")]⟩ ⟨[("a", "9"), ("c", "3")]⟩ "a" "1" "9"
    (by decide) (by decide) (by decide)

/-! ### C3 -/

/-- Helper: characterization of `BySourceThenSpecificity.Less` as the
four-level lexicographic comparison. -/
theorem cpeLess_iff (x y : CPE) :
    bySourceThenSpecificityLess x y = true ↔
      (getRank x.source < getRank y.source ∨
        (getRank x.source = getRank y.source ∧
          (weightedCountForSpecifiedFields y.attributes <
              weightedCountForSpecifiedFields x.attributes ∨
            (weightedCountForSpecifiedFields x.attributes =
                weightedCountForSpecifiedFields y.attributes ∧
              (countFieldLength y.attributes < countFieldLength x.attributes ∨
                (countFieldLength x.attributes = countFieldLength y.attributes ∧
                  x.attributes.bindToFmtString < y.attributes.bindToFmtString)))))) := by
  unfold bySourceThenSpecificityLess isMoreSpecific
  dsimp only
  by_cases h1 : getRank x.source = getRank y.source
  · rw [if_neg (not_not_intro h1)]
    by_cases h2 : weightedCountForSpecifiedFields x.attributes =
        weightedCountForSpecifiedFields y.attributes
    · rw [if_neg (not_not_intro h2)]
      by_cases h3 : countFieldLength x.attributes = countFieldLength y.attributes
      · rw [if_neg (not_not_intro h3), charListLt_str_iff]
        simp [h1, h2, h3, lt_irrefl]
      · rw [if_pos h3]
        simp [h1, h2, h3, lt_irrefl]
    · rw [if_pos h2]
      simp [h1, h2, lt_irrefl]
  · rw [if_pos h1]
    simp [h1, lt_irrefl]

/-- Helper: the comparison is asymmetric. -/
theorem cpeLess_asymm (x y : CPE) :
    bySourceThenSpecificityLess x y = true →
      bySourceThenSpecificityLess y x = true → False := by
  intro h1 h2
  rw [cpeLess_iff] at h1 h2
  rcases h1 with h1 | ⟨e1, h1⟩ <;> rcases h2 with h2 | ⟨e2, h2⟩
  · omega
  · omega
  · omega
  · rcases h1 with h1 | ⟨f1, h1⟩ <;> rcases h2 with h2 | ⟨f2, h2⟩
    · omega
    · omega
    · omega
    · rcases h1 with h1 | ⟨g1, h1⟩ <;> rcases h2 with h2 | ⟨g2, h2⟩
      · omega
      · omega
      · omega
      · exact absurd h2 (lt_asymm h1)

/-- Helper: the comparison is transitive. -/
theorem cpeLess_trans (x y z : CPE) :
    bySourceThenSpecificityLess x y = true →
      bySourceThenSpecificityLess y z = true →
        bySourceThenSpecificityLess x z = true := by
  intro h1 h2
  rw [cpeLess_iff] at h1 h2 ⊢
  rcases h1 with h1 | ⟨e1, h1⟩
  · rcases h2 with h2 | ⟨e2, h2⟩
    · exact Or.inl (by omega)
    · exact Or.inl (by omega)
  · rcases h2 with h2 | ⟨e2, h2⟩
    · exact Or.inl (by omega)
    · refine Or.inr ⟨by omega, ?_⟩
      rcases h1 with h1 | ⟨f1, h1⟩
      · rcases h2 with h2 | ⟨f2, h2⟩
        · exact Or.inl (by omega)
        · exact Or.inl (by omega)
      · rcases h2 with h2 | ⟨f2, h2⟩
        · exact Or.inl (by omega)
        · refine Or.inr ⟨by omega, ?_⟩
          rcases h1 with h1 | ⟨g1, h1⟩
          · rcases h2 with h2 | ⟨g2, h2⟩
            · exact Or.inl (by omega)
            · exact Or.inl (by omega)
          · rcases h2 with h2 | ⟨g2, h2⟩
            · exact Or.inl (by omega)
            · exact Or.inr ⟨by omega, lt_trans h1 h2⟩

/-- Helper: the comparison is connected up to equality of all four
comparison keys. -/
theorem cpeLess_connex (x y : CPE) :
    bySourceThenSpecificityLess x y = true ∨ bySourceThenSpecificityLess y x = true ∨
      (getRank x.source = getRank y.source ∧
        weightedCountForSpecifiedFields x.attributes =
          weightedCountForSpecifiedFields y.attributes ∧
        countFieldLength x.attributes = countFieldLength y.attributes ∧
        x.attributes.bindToFmtString = y.attributes.bindToFmtString) := by
  by_cases h1 : getRank x.source = getRank y.source
  · by_cases h2 : weightedCountForSpecifiedFields x.attributes =
        weightedCountForSpecifiedFields y.attributes
    · by_cases h3 : countFieldLength x.attributes = countFieldLength y.attributes
      · rcases lt_trichotomy x.attributes.bindToFmtString y.attributes.bindToFmtString with
          h4 | h4 | h4
        · exact Or.inl ((cpeLess_iff x y).mpr (Or.inr ⟨h1, Or.inr ⟨h2, Or.inr ⟨h3, h4⟩⟩⟩))
        · exact Or.inr (Or.inr ⟨h1, h2, h3, h4⟩)
        · exact Or.inr (Or.inl ((cpeLess_iff y x).mpr
            (Or.inr ⟨h1.symm, Or.inr ⟨h2.symm, Or.inr ⟨h3.symm, h4⟩⟩⟩)))
      · rcases Nat.lt_or_ge (countFieldLength x.attributes)
          (countFieldLength y.attributes) with h4 | h4
        · exact Or.inr (Or.inl ((cpeLess_iff y x).mpr
            (Or.inr ⟨h1.symm, Or.inr ⟨h2.symm, Or.inl h4⟩⟩)))
        · exact Or.inl ((cpeLess_iff x y).mpr
            (Or.inr ⟨h1, Or.inr ⟨h2, Or.inl (by omega)⟩⟩))
    · rcases Nat.lt_or_ge (weightedCountForSpecifiedFields x.attributes)
        (weightedCountForSpecifiedFields y.attributes) with h4 | h4
      · exact Or.inr (Or.inl ((cpeLess_iff y x).mpr (Or.inr ⟨h1.symm, Or.inl h4⟩)))
      · exact Or.inl ((cpeLess_iff x y).mpr (Or.inr ⟨h1, Or.inl (by omega)⟩))
  · rcases Nat.lt_or_ge (getRank x.source) (getRank y.source) with h4 | h4
    · exact Or.inl ((cpeLess_iff x y).mpr (Or.inl h4))
    · exact Or.inr (Or.inl ((cpeLess_iff y x).mpr (Or.inl (by omega))))

/-- C3: `BySourceThenSpecificity` is a total deterministic order: it
compares first by source priority (nvd-dictionary-lookup 1, declared 2,
generated 3, every other source 4, ties among unknown sources), then by
the weighted count of specified fields (Vendor 3, Product 4, Part 2,
Version 1, TargetSW 1, larger first), then by total field length (larger
first), and finally lexicographically on the bound format string; the
relation is irreflexive, transitive and connected up to equality of the
four comparison keys. -/
theorem bySourceThenSpecificity_total_deterministic (x y z : CPE) :
    (bySourceThenSpecificityLess x y = true ↔
      (getRank x.source < getRank y.source ∨
        (getRank x.source = getRank y.source ∧
          (weightedCountForSpecifiedFields y.attributes <
              weightedCountForSpecifiedFields x.attributes ∨
            (weightedCountForSpecifiedFields x.attributes =
                weightedCountForSpecifiedFields y.attributes ∧
              (countFieldLength y.attributes < countFieldLength x.attributes ∨
                (countFieldLength x.attributes = countFieldLength y.attributes ∧
                  x.attributes.bindToFmtString < y.attributes.bindToFmtString))))))) ∧
    getRank NVDDictionaryLookupSource = 1 ∧ getRank DeclaredSource = 2 ∧
    getRank GeneratedSource = 3 ∧ getRank "sbom-import" = 4 ∧
    bySourceThenSpecificityLess x x = false ∧
    (bySourceThenSpecificityLess x y = true →
      bySourceThenSpecificityLess y z = true →
        bySourceThenSpecificityLess x z = true) ∧
    (bySourceThenSpecificityLess x y = true ∨ bySourceThenSpecificityLess y x = true ∨
      (getRank x.source = getRank y.source ∧
        weightedCountForSpecifiedFields x.attributes =
          weightedCountForSpecifiedFields y.attributes ∧
        countFieldLength x.attributes = countFieldLength y.attributes ∧
        x.attributes.bindToFmtString = y.attributes.bindToFmtString)) := by
  refine ⟨cpeLess_iff x y, by decide, by decide, by decide, by decide, ?_, cpeLess_trans x y z,
    cpeLess_connex x y⟩
  cases h : bySourceThenSpecificityLess x x with
  | false => rfl
  | true => exact (cpeLess_asymm x x h h).elim

/-- C3 witness: the transitivity hypothesis discharged on three concrete
CPEs ordered by source priority. -/
theorem bySourceThenSpecificity_total_deterministic_witness :
    bySourceThenSpecificityLess
      ⟨NVDDictionaryLookupSource, ⟨"a", "b", "c", "d", "e"⟩⟩
      ⟨GeneratedSource, ⟨"a", "b", "c", "d", "e"⟩⟩ = true :=
  ((bySourceThenSpecificity_total_deterministic
      ⟨NVDDictionaryLookupSource, ⟨"a", "b", "c", "d", "e"⟩⟩
      ⟨DeclaredSource, ⟨"a", "b", "c", "d", "e"⟩⟩
      ⟨GeneratedSource, ⟨"a", "b", "c", "d", "e"⟩⟩).2.2.2.2.2.2.1)
    (by decide) (by decide)

/-! ### C5 -/

/-- Helper: `getLast?` of a cons in terms of the tail. -/
theorem getLast?_cons_getD {α : Type} (a : α) (xs : List α) :
    (a :: xs).getLast? = some (xs.getLast?.getD a) := by
  induction xs generalizing a with
  | nil => rfl
  | cons y ys ih =>
    rw [List.getLast?_cons_cons, ih y]
    rfl

/-- Helper: the last element is a member. -/
theorem lastMem {α : Type} {l : List α} {a : α} (h : l.getLast? = some a) : a ∈ l := by
  induction l with
  | nil => simp at h
  | cons x xs ih =>
    rw [getLast?_cons_getD x xs] at h
    cases hx : xs.getLast? with
    | none =>
      rw [hx] at h
      simp only [Option.getD_none, Option.some.injEq] at h
      exact h ▸ List.mem_cons_self x xs
    | some z =>
      rw [hx] at h
      simp only [Option.getD_some, Option.some.injEq] at h
      rw [h] at hx
      exact List.mem_cons_of_mem x (ih hx)

/-- Helper: the best-id fold keeps the last non-empty element. -/
theorem bestIdFold (l : List String) : ∀ best : String,
    l.foldl (fun bb i => if i ≠ "" then i else bb) best =
      ((l.filter (fun s => s != "")).getLast?).getD best := by
  induction l with
  | nil => intro best; rfl
  | cons i rest ih =>
    intro best
    by_cases hi : i = ""
    · subst hi
      simp only [List.foldl_cons]
      rw [if_neg (by decide), List.filter_cons]
      rw [if_neg (by decide)]
      exact ih best
    · simp only [List.foldl_cons, if_pos hi, List.filter_cons]
      rw [if_pos (by simpa using hi), ih i, getLast?_cons_getD]
      cases h : (rest.filter (fun s => s != "")).getLast? <;> rfl

/-- Helper: when every decoder is skipped, the loop reports from the folded
best id. -/
theorem decodeLoop_skip_all {α : Type} (r : Reader) :
    ∀ (ds : List (FormatDecoder α)) (best : String),
      (∀ d ∈ ds, (d.identify r).1 = "" ∨ (d.identify r).2 = "") →
      decodeLoop r best ds =
        (if ((ds.map (fun d => (d.identify r).1)).foldl
              (fun bb i => if i ≠ "" then i else bb) best) ≠ "" then
          DecodeOutcome.versionUnsupported
            ((ds.map (fun d => (d.identify r).1)).foldl
              (fun bb i => if i ≠ "" then i else bb) best)
        else DecodeOutcome.unrecognized) := by
  intro ds
  induction ds with
  | nil => intro best _; rfl
  | cons d rest ih =>
    intro best hall
    have hd := hall d (List.mem_cons_self d rest)
    have hrest : ∀ d' ∈ rest, (d'.identify r).1 = "" ∨ (d'.identify r).2 = "" :=
      fun d' hd' => hall d' (List.mem_cons_of_mem d hd')
    simp only [decodeLoop]
    rw [if_pos (by simpa using hd)]
    rw [ih _ hrest]
    rfl

/-- Helper: the first decoder identifying both id and version is selected
and run. -/
theorem decodeLoop_first {α : Type} (r : Reader) (d : FormatDecoder α)
    (post : List (FormatDecoder α))
    (hid : (d.identify r).1 ≠ "") (hver : (d.identify r).2 ≠ "") :
    ∀ (pre : List (FormatDecoder α)) (best : String),
      (∀ d' ∈ pre, (d'.identify r).1 = "" ∨ (d'.identify r).2 = "") →
      decodeLoop r best (pre ++ d :: post) = DecodeOutcome.decoded (d.decode r) := by
  intro pre
  induction pre with
  | nil =>
    intro best _
    simp only [List.nil_append, decodeLoop]
    rw [if_neg (by simpa using And.intro hid hver)]
  | cons d' pre' ih =>
    intro best hall
    have hd' := hall d' (List.mem_cons_self d' pre')
    have hpre' : ∀ d'' ∈ pre', (d''.identify r).1 = "" ∨ (d''.identify r).2 = "" :=
      fun d'' hd'' => hall d'' (List.mem_cons_of_mem d' hd'')
    simp only [List.cons_append, decodeLoop]
    rw [if_pos (by simpa using hd')]
    exact ih _ hpre'

/-- C5: `DecoderCollection.Decode` runs the first decoder whose `Identify`
returns both a non-empty id and a non-empty version; if no decoder returns
both but some decoder returns a non-empty id alone, it reports a
version-unsupported error carrying the last such id; if no decoder returns
any id it reports format-not-recognized; a nil reader reports
no-SBOM-bytes. -/
theorem decoderCollection_decode_spec {α : Type} (ds : List (FormatDecoder α)) (r : Reader) :
    (∀ pre d post, ds = pre ++ d :: post →
      (∀ d' ∈ pre, (d'.identify r).1 = "" ∨ (d'.identify r).2 = "") →
      (d.identify r).1 ≠ "" → (d.identify r).2 ≠ "" →
      DecoderCollection.decode ds (some r) = DecodeOutcome.decoded (d.decode r)) ∧
    ((∀ d ∈ ds, (d.identify r).1 = "" ∨ (d.identify r).2 = "") →
      ∀ i, ((ds.map (fun d => (d.identify r).1)).filter (fun s => s != "")).getLast? =
          some i →
      DecoderCollection.decode ds (some r) = DecodeOutcome.versionUnsupported i) ∧
    ((∀ d ∈ ds, (d.identify r).1 = "") →
      DecoderCollection.decode ds (some r) = DecodeOutcome.unrecognized) ∧
    DecoderCollection.decode ds none = DecodeOutcome.noBytes := by
  refine ⟨?_, ?_, ?_, rfl⟩
  · intro pre d post hds hpre hid hver
    subst hds
    exact decodeLoop_first r d post hid hver pre "" hpre
  · intro hall i hi
    have hne : i ≠ "" := by
      have hmem := lastMem hi
      have := (List.mem_filter.mp hmem).2
      simpa using this
    show decodeLoop r "" ds = DecodeOutcome.versionUnsupported i
    rw [decodeLoop_skip_all r ds "" hall, bestIdFold, hi]
    simp [hne]
  · intro hall
    have hall' : ∀ d ∈ ds, (d.identify r).1 = "" ∨ (d.identify r).2 = "" :=
      fun d hd => Or.inl (hall d hd)
    have hfil : (ds.map (fun d => (d.identify r).1)).filter (fun s => s != "") = [] := by
      rw [List.filter_eq_nil_iff]
      intro a ha
      obtain ⟨d, hd, rfl⟩ := List.mem_map.mp ha
      simpa using hall d hd
    show decodeLoop r "" ds = DecodeOutcome.unrecognized
    rw [decodeLoop_skip_all r ds "" hall', bestIdFold, hfil]
    simp

/-- C5 witness: one decoder that identifies the format family but not the
version makes Decode report version-unsupported with that id. -/
theorem decoderCollection_decode_spec_witness :
    DecoderCollection.decode
        [({ identify := fun _ => ("spdx-json", ""), decode := fun _ => 0 } :
          FormatDecoder Nat)] (some "doc") =
      DecodeOutcome.versionUnsupported "spdx-json" :=
  ((decoderCollection_decode_spec
      [({ identify := fun _ => ("spdx-json", ""), decode := fun _ => 0 } :
        FormatDecoder Nat)] "doc").2.1)
    (by
      intro d hd
      simp only [List.mem_singleton] at hd
      subst hd
      exact Or.inr rfl)
    "spdx-json" (by rfl)

/-! ### C4 -/

/-- Helper: the Bool loop condition agrees with the propositional match
condition for the cleaned requested name. -/
theorem encMatchB_iff (name ver : String) (f : FormatEncoder) :
    encMatchB (cleanFormatName name) ver f = true ↔ encMatches name ver f := by
  simp [encMatchB, encMatches, List.any_eq_true, Bool.and_eq_true, beq_iff_eq]

/-- Helper: invariant of the `EncoderCollection.Get` loop — the returned
encoder matches, comes from the accumulator or the remaining list, and its
version is maximal (Go string order) among the matches seen. -/
theorem getLoopEnc_spec (nm ver : String) :
    ∀ (ds : List FormatEncoder) (acc : Option FormatEncoder),
      (∀ g, acc = some g → encMatchB nm ver g = true) →
      (∀ f, getLoopEnc nm ver acc ds = some f →
          encMatchB nm ver f = true ∧ (acc = some f ∨ f ∈ ds) ∧
          (∀ g ∈ ds, encMatchB nm ver g = true → ¬ (f.version < g.version)) ∧
          (∀ g, acc = some g → ¬ (f.version < g.version))) ∧
      (getLoopEnc nm ver acc ds = none ↔
        (acc = none ∧ ∀ f ∈ ds, encMatchB nm ver f = false)) := by
  intro ds
  induction ds with
  | nil =>
    intro acc hacc
    constructor
    · intro f hf
      simp only [getLoopEnc] at hf
      refine ⟨hacc f hf, Or.inl hf, by simp, ?_⟩
      intro g hg
      rw [hf] at hg
      cases hg
      exact lt_irrefl _
    · simp only [getLoopEnc]
      constructor
      · intro h; exact ⟨h, by simp⟩
      · intro h; exact h.1
  | cons f0 rest ih =>
    intro acc hacc
    by_cases hm : encMatchB nm ver f0 = true
    · cases acc with
      | none =>
        have hacc' : ∀ g, (some f0 : Option FormatEncoder) = some g →
            encMatchB nm ver g = true := by
          intro g hg; cases hg; exact hm
        have lh := ih (some f0) hacc'
        constructor
        · intro f hf
          simp only [getLoopEnc, if_pos hm] at hf
          obtain ⟨hfm, horigin, hmaxrest, hmaxacc⟩ := lh.1 f hf
          refine ⟨hfm, ?_, ?_, ?_⟩
          · rcases horigin with h | h
            · cases h; exact Or.inr (List.mem_cons_self _ _)
            · exact Or.inr (List.mem_cons_of_mem _ h)
          · intro g hg hgm
            rcases List.mem_cons.mp hg with rfl | hg'
            · exact hmaxacc g rfl
            · exact hmaxrest g hg' hgm
          · intro g hg
            cases hg
        · simp only [getLoopEnc, if_pos hm]
          rw [lh.2]
          constructor
          · rintro ⟨h, -⟩; cases h
          · rintro ⟨-, h⟩
            exact absurd (h f0 (List.mem_cons_self _ _)) (by simp [hm])
      | some g0 =>
        have hg0 : encMatchB nm ver g0 = true := hacc g0 rfl
        have hlt := charListLt_str_iff g0.version f0.version
        by_cases hv : g0.version < f0.version
        · have hvb : charListLt g0.version.data f0.version.data = true := hlt.mpr hv
          have hacc' : ∀ g, (some f0 : Option FormatEncoder) = some g →
              encMatchB nm ver g = true := by
            intro g hg; cases hg; exact hm
          have lh := ih (some f0) hacc'
          constructor
          · intro f hf
            simp only [getLoopEnc, if_pos hm] at hf
            rw [if_pos hvb] at hf
            obtain ⟨hfm, horigin, hmaxrest, hmaxacc⟩ := lh.1 f hf
            have hff0 : ¬ (f.version < f0.version) := hmaxacc f0 rfl
            refine ⟨hfm, ?_, ?_, ?_⟩
            · rcases horigin with h | h
              · cases h; exact Or.inr (List.mem_cons_self _ _)
              · exact Or.inr (List.mem_cons_of_mem _ h)
            · intro g hg hgm
              rcases List.mem_cons.mp hg with rfl | hg'
              · exact hff0
              · exact hmaxrest g hg' hgm
            · intro g hg
              cases hg
              intro hcon
              exact absurd (lt_trans hv (lt_of_le_of_lt (not_lt.mp hff0) hcon))
                (lt_irrefl _)
          · simp only [getLoopEnc, if_pos hm]
            rw [if_pos hvb, lh.2]
            constructor
            · rintro ⟨h, -⟩; cases h
            · rintro ⟨h, -⟩; cases h
        · have hvb : ¬ (charListLt g0.version.data f0.version.data = true) :=
            fun hh => hv (hlt.mp hh)
          have lh := ih (some g0) hacc
          constructor
          · intro f hf
            simp only [getLoopEnc, if_pos hm] at hf
            rw [if_neg hvb] at hf
            obtain ⟨hfm, horigin, hmaxrest, hmaxacc⟩ := lh.1 f hf
            have hfg0 : ¬ (f.version < g0.version) := hmaxacc g0 rfl
            refine ⟨hfm, ?_, ?_, ?_⟩
            · rcases horigin with h | h
              · exact Or.inl h
              · exact Or.inr (List.mem_cons_of_mem _ h)
            · intro g hg hgm
              rcases List.mem_cons.mp hg with rfl | hg'
              · exact fun hcon =>
                  absurd (lt_of_le_of_lt (le_trans (not_lt.mp hv) (not_lt.mp hfg0)) hcon)
                    (lt_irrefl _)
              · exact hmaxrest g hg' hgm
            · exact hmaxacc
          · simp only [getLoopEnc, if_pos hm]
            rw [if_neg hvb, lh.2]
            constructor
            · rintro ⟨h, -⟩; cases h
            · rintro ⟨h, -⟩; cases h
    · have lh := ih acc hacc
      constructor
      · intro f hf
        simp only [getLoopEnc, if_neg hm] at hf
        obtain ⟨hfm, horigin, hmaxrest, hmaxacc⟩ := lh.1 f hf
        refine ⟨hfm, ?_, ?_, hmaxacc⟩
        · rcases horigin with h | h
          · exact Or.inl h
          · exact Or.inr (List.mem_cons_of_mem _ h)
        · intro g hg hgm
          rcases List.mem_cons.mp hg with rfl | hg'
          · exact absurd hgm hm
          · exact hmaxrest g hg' hgm
      · simp only [getLoopEnc, if_neg hm]
        rw [lh.2]
        constructor
        · rintro ⟨h1, h2⟩
          refine ⟨h1, ?_⟩
          intro f' hf'
          rcases List.mem_cons.mp hf' with rfl | hf''
          · exact Bool.not_eq_true _ ▸ (by simpa using hm)
          · exact h2 f' hf''
        · rintro ⟨h1, h2⟩
          exact ⟨h1, fun f' hf' => h2 f' (List.mem_cons_of_mem _ hf')⟩

/-- C4: `EncoderCollection.Get` returns an encoder exactly when one matches
— the cleaned requested name (lowercased, "-" and "_" removed) equals the
cleaned ID or alias, and the requested version matches with "*" as a
wildcard over the dotted version string — and among the matching encoders
it returns one with the highest version (Go string comparison). -/
theorem encoderCollection_get_spec (es : List FormatEncoder) (name version : String) :
    (∀ f, EncoderCollection.get es name version = some f →
      f ∈ es ∧ encMatches name version f ∧
      ∀ g ∈ es, encMatches name version g → ¬ (f.version < g.version)) ∧
    (EncoderCollection.get es name version = none ↔
      ∀ f ∈ es, ¬ encMatches name version f) := by
  have lh := getLoopEnc_spec (cleanFormatName name) version es none (by intro g hg; cases hg)
  constructor
  · intro f hf
    obtain ⟨hfm, horigin, hmaxrest, -⟩ := lh.1 f hf
    refine ⟨?_, (encMatchB_iff name version f).mp hfm, ?_⟩
    · rcases horigin with h | h
      · cases h
      · exact h
    · intro g hg hgm
      exact hmaxrest g hg ((encMatchB_iff name version g).mpr hgm)
  · rw [EncoderCollection.get, lh.2]
    constructor
    · rintro ⟨-, h⟩ f hf hm
      exact absurd ((encMatchB_iff name version f).mpr hm) (by simp [h f hf])
    · intro h
      refine ⟨rfl, fun f hf => ?_⟩
      cases hfm : encMatchB (cleanFormatName name) version f
      · rfl
      · exact absurd ((encMatchB_iff name version f).mp hfm) (h f hf)

/-- C4 witness: two SPDX encoders match the alias with a wildcard version;
the returned encoder has the highest version. -/
theorem encoderCollection_get_spec_witness :
    (⟨"spdx-json", ["spdx"], "2.3"⟩ : FormatEncoder) ∈
        [(⟨"spdx-json", ["spdx"], "2.2"⟩ : FormatEncoder), ⟨"spdx-json", ["spdx"], "2.3"⟩] ∧
      encMatches "SPDX_JSON" "*" ⟨"spdx-json", ["spdx"], "2.3"⟩ ∧
      ∀ g ∈ [(⟨"spdx-json", ["spdx"], "2.2"⟩ : FormatEncoder), ⟨"spdx-json", ["spdx"], "2.3"⟩],
        encMatches "SPDX_JSON" "*" g →
          ¬ ((⟨"spdx-json", ["spdx"], "2.3"⟩ : FormatEncoder).version < g.version) :=
  (encoderCollection_get_spec
      [⟨"spdx-json", ["spdx"], "2.2"⟩, ⟨"spdx-json", ["spdx"], "2.3"⟩]
      "SPDX_JSON" "*").1 ⟨"spdx-json", ["spdx"], "2.3"⟩ (by decide)

/-! ### C9 -/

/-- Helper: taking a smaller prefix of the first sector reads the same
prefix of the file. -/
theorem take512_take (f : List Nat) (n : Nat) (h : n ≤ 512) :
    (f.take 512).take n = f.take n := by
  rw [List.take_take]
  congr 1
  omega

/-- Helper: indexing inside the first sector reads the file. -/
theorem take512_getD (f : List Nat) (i : Nat) (hi : i < 512) :
    (f.take 512).getD i 0 = f.getD i 0 := by
  simp [List.getD_eq_getElem?_getD, List.getElem?_take, hi]

/-- Helper: a byte list with a two-byte prefix determines the first two
indexed reads. -/
theorem take2_getD {f : List Nat} {a b : Nat} (h : f.take 2 = [a, b]) :
    f.getD 0 0 = a ∧ f.getD 1 0 = b := by
  cases f with
  | nil => simp at h
  | cons x0 t0 =>
    cases t0 with
    | nil => simp at h
    | cons x1 t1 =>
      simp at h
      obtain ⟨rfl, rfl⟩ := h
      exact ⟨rfl, rfl⟩

/-- Helper: a byte list with a four-byte prefix determines the first four
indexed reads and the two-byte prefix. -/
theorem take4_facts {f : List Nat} {a b c d : Nat} (h : f.take 4 = [a, b, c, d]) :
    f.getD 0 0 = a ∧ f.getD 1 0 = b ∧ f.getD 2 0 = c ∧ f.getD 3 0 = d ∧
      f.take 2 = [a, b] := by
  cases f with
  | nil => simp at h
  | cons x0 t0 =>
    cases t0 with
    | nil => simp at h
    | cons x1 t1 =>
      cases t1 with
      | nil => simp at h
      | cons x2 t2 =>
        cases t2 with
        | nil => simp at h
        | cons x3 t3 =>
          simp at h
          obtain ⟨rfl, rfl, rfl, rfl⟩ := h
          exact ⟨rfl, rfl, rfl, rfl, rfl⟩

/-- Helper: a byte value read from within the list is below 256 when all
members are. -/
theorem getD_byte_lt {f : List Nat} (hb : ∀ x ∈ f, x < 256) {i : Nat}
    (hi : i < f.length) : f.getD i 0 < 256 := by
  rw [List.getD_eq_getElem f 0 hi]
  exact hb _ (List.getElem_mem hi)

/-- C9: executable format identification reads the first 512 bytes and
classifies by magic number — 0xCAFEBABE with byte 7 below 20 or a Mach-O
magic yields MachO, otherwise "MZ" yields PE, otherwise 0x7F "ELF" yields
ELF, and a Java class file (0xCAFEBABE with byte 7 at least 20) yields no
format. -/
theorem findExecutableFormat_magic (f : List Nat) (hlen : 512 ≤ f.length)
    (hbytes : ∀ x ∈ f, x < 256) :
    (f.take 4 = [0xCA, 0xFE, 0xBA, 0xBE] → f.getD 7 0 < 20 →
      findExecutableFormat f = Except.ok (some ExecutableFormat.macho)) ∧
    ((f.take 4 = [0xFE, 0xED, 0xFA, 0xCE] ∨ f.take 4 = [0xCE, 0xFA, 0xED, 0xFE] ∨
      f.take 4 = [0xFE, 0xED, 0xFA, 0xCF] ∨ f.take 4 = [0xCF, 0xFA, 0xED, 0xFE]) →
      findExecutableFormat f = Except.ok (some ExecutableFormat.macho)) ∧
    (f.take 2 = [0x4D, 0x5A] →
      findExecutableFormat f = Except.ok (some ExecutableFormat.pe)) ∧
    (f.take 4 = [0x7F, 0x45, 0x4C, 0x46] →
      findExecutableFormat f = Except.ok (some ExecutableFormat.elf)) ∧
    (f.take 4 = [0xCA, 0xFE, 0xBA, 0xBE] → 20 ≤ f.getD 7 0 →
      findExecutableFormat f = Except.ok none) := by
  have hnotshort : ¬ (f.length < 512) := by omega
  have hlen512 : (f.take 512).length = 512 := by
    simp [List.length_take]
    omega
  have hnot4 : ¬ ((f.take 512).length < 4) := by omega
  have hg7 : (f.take 512).getD 7 0 = f.getD 7 0 := take512_getD f 7 (by omega)
  have ht4 : (f.take 512).take 4 = f.take 4 := take512_take f 4 (by omega)
  have ht2 : (f.take 512).take 2 = f.take 2 := take512_take f 2 (by omega)
  have hg0 : (f.take 512).getD 0 0 = f.getD 0 0 := take512_getD f 0 (by omega)
  have hg1 : (f.take 512).getD 1 0 = f.getD 1 0 := take512_getD f 1 (by omega)
  have hg2 : (f.take 512).getD 2 0 = f.getD 2 0 := take512_getD f 2 (by omega)
  have hg3 : (f.take 512).getD 3 0 = f.getD 3 0 := take512_getD f 3 (by omega)
  refine ⟨?_, ?_, ?_, ?_, ?_⟩
  · intro h4 h7
    have hcond : (classOrMachOFat (f.take 512) &&
        decide ((f.take 512).getD 7 0 < 20)) = true := by
      rw [classOrMachOFat, hg7, ht4, h4]
      simp only [Bool.and_eq_true, decide_eq_true_eq]
      exact ⟨⟨by omega, trivial⟩, h7⟩
    have hmach : isMacho (f.take 512) = true := by
      rw [isMacho, if_pos hcond]
    simp only [findExecutableFormat, if_neg hnotshort]
    rw [if_pos hmach]
  · intro h4
    have hfat : classOrMachOFat (f.take 512) = false := by
      rw [classOrMachOFat, ht4]
      have hne : ¬ (f.take 4 = [0xCA, 0xFE, 0xBA, 0xBE]) := by
        rcases h4 with h4 | h4 | h4 | h4 <;> rw [h4] <;> simp
      simp [hne]
    have hmach : isMacho (f.take 512) = true := by
      rw [isMacho, if_neg (by simp [hfat]), if_neg hnot4]
      rcases h4 with h4 | h4 | h4 | h4 <;>
        · obtain ⟨e0, e1, e2, e3, -⟩ := take4_facts h4
          simp only [beU32, leU32, hg0, hg1, hg2, hg3, e0, e1, e2, e3]
          decide
    simp only [findExecutableFormat, if_neg hnotshort]
    rw [if_pos hmach]
  · intro h2
    obtain ⟨e0, e1⟩ := take2_getD h2
    have c2 : f.getD 2 0 < 256 := getD_byte_lt hbytes (by omega)
    have c3 : f.getD 3 0 < 256 := getD_byte_lt hbytes (by omega)
    have hfat : classOrMachOFat (f.take 512) = false := by
      rw [classOrMachOFat, ht4]
      have hne : ¬ (f.take 4 = [0xCA, 0xFE, 0xBA, 0xBE]) := by
        intro hc
        have he0 := (take4_facts hc).1
        omega
      simp [hne]
    have hmach : isMacho (f.take 512) = false := by
      rw [isMacho, if_neg (by simp [hfat]), if_neg hnot4]
      simp only [beU32, leU32, hg0, hg1, hg2, hg3, e0, e1]
      simp only [Bool.or_eq_false_iff, decide_eq_false_iff_not]
      omega
    have hpe : isPE (f.take 512) = true := by
      rw [isPE, ht2, h2]
      decide
    simp only [findExecutableFormat, if_neg hnotshort]
    rw [if_neg (by simp [hmach]), if_pos hpe]
  · intro h4
    obtain ⟨e0, e1, e2, e3, htk2⟩ := take4_facts h4
    have hfat : classOrMachOFat (f.take 512) = false := by
      rw [classOrMachOFat, ht4, h4]
      simp
    have hmach : isMacho (f.take 512) = false := by
      rw [isMacho, if_neg (by simp [hfat]), if_neg hnot4]
      simp only [beU32, leU32, hg0, hg1, hg2, hg3, e0, e1, e2, e3]
      decide
    have hpe : isPE (f.take 512) = false := by
      rw [isPE, ht2, htk2]
      decide
    have helf : isELF (f.take 512) = true := by
      rw [isELF, ht4, h4]
      decide
    simp only [findExecutableFormat, if_neg hnotshort]
    rw [if_neg (by simp [hmach]), if_neg (by simp [hpe]), if_pos helf]
  · intro h4 h7
    obtain ⟨e0, e1, e2, e3, htk2⟩ := take4_facts h4
    have hmach : isMacho (f.take 512) = false := by
      rw [isMacho, if_neg, if_neg hnot4]
      · simp only [beU32, leU32, hg0, hg1, hg2, hg3, e0, e1, e2, e3]
        decide
      · simp only [Bool.and_eq_true, decide_eq_true_eq, hg7, not_and]
        intro _ hcon
        omega
    have hpe : isPE (f.take 512) = false := by
      rw [isPE, ht2, htk2]
      decide
    have helf : isELF (f.take 512) = false := by
      rw [isELF, ht4, h4]
      decide
    simp only [findExecutableFormat, if_neg hnotshort]
    rw [if_neg (by simp [hmach]), if_neg (by simp [hpe]), if_neg (by simp [helf])]

set_option maxRecDepth 8000 in
/-- C9 witness: a Java class file header (0xCAFEBABE, byte 7 = 52) is
classified as none of the executable formats. -/
theorem findExecutableFormat_magic_witness :
    findExecutableFormat
        ([0xCA, 0xFE, 0xBA, 0xBE, 0, 0, 0, 52] ++ List.replicate 504 0) =
      Except.ok none :=
  (findExecutableFormat_magic
      ([0xCA, 0xFE, 0xBA, 0xBE, 0, 0, 0, 52] ++ List.replicate 504 0)
      (by simp)
      (by
        intro x hx
        rw [List.mem_append] at hx
        rcases hx with hx | hx
        · simp only [List.mem_cons, List.not_mem_nil, or_false] at hx
          rcases hx with rfl | rfl | rfl | rfl | rfl | rfl | rfl | rfl <;> omega
        · rw [List.eq_of_mem_replicate hx]
          omega)).2.2.2.2 (by decide) (by decide)

/-! ### C7 -/

/-- C7 counterexample: with target root "/tmp/dest", the archive entry
"../dest2/f" passes the string-prefix check — "/tmp/dest2/f" starts with
"/tmp/dest" — so UnzipToDir writes outside the target root (the written
path is neither the root itself nor under "/tmp/dest/"); the claim that
UnzipToDir writes only to paths inside the target root is false. -/
theorem safeJoin_sibling_escape :
    safeJoin "/tmp/dest" ["../dest2/f"] = Except.ok "/tmp/dest2/f" ∧
      UnzipToDir ["../dest2/f"] "/tmp/dest" = [Except.ok "/tmp/dest2/f"] ∧
      cleanPath "/tmp/dest2/f" = "/tmp/dest2/f" ∧
      "/tmp/dest2/f" ≠ "/tmp/dest" ∧
      ("/tmp/dest/").data.isPrefixOf ("/tmp/dest2/f").data = false := by
  decide

/-- C7 amended: safeJoin joins the target root with the entry name, cleans
the result, and returns errZipSlipDetected exactly when the cleaned joined
path does not have the cleaned target root as a string prefix; hence every
path UnzipToDir extracts to has the cleaned target root as a string prefix
of its cleaned form (which is weaker than being inside the target root:
sibling paths extending the root's last component also pass). -/
theorem safeJoin_string_prefix_contract (pfx : String) (dest : List String) :
    (∀ p, safeJoin pfx dest = Except.ok p →
      p = goJoin (pfx :: dest) ∧
      (cleanPath pfx).data.isPrefixOf (cleanPath p).data = true) ∧
    (safeJoin pfx dest = Except.error { rootPath := pfx, joinArgs := dest } ↔
      (cleanPath pfx).data.isPrefixOf (cleanPath (goJoin (pfx :: dest))).data = false) ∧
    (∀ names p, Except.ok p ∈ UnzipToDir names pfx →
      (cleanPath pfx).data.isPrefixOf (cleanPath p).data = true) := by
  have hmain : ∀ (d : List String),
      (∀ p, safeJoin pfx d = Except.ok p →
        p = goJoin (pfx :: d) ∧
        (cleanPath pfx).data.isPrefixOf (cleanPath p).data = true) ∧
      (safeJoin pfx d = Except.error { rootPath := pfx, joinArgs := d } ↔
        (cleanPath pfx).data.isPrefixOf (cleanPath (goJoin (pfx :: d))).data = false) := by
    intro d
    constructor
    · intro p hp
      unfold safeJoin at hp
      by_cases hc : (cleanPath pfx).data.isPrefixOf
          (cleanPath (goJoin (pfx :: d))).data = true
      · rw [if_pos hc] at hp
        cases hp
        exact ⟨rfl, hc⟩
      · rw [if_neg hc] at hp
        cases hp
    · unfold safeJoin
      by_cases hc : (cleanPath pfx).data.isPrefixOf
          (cleanPath (goJoin (pfx :: d))).data = true
      · rw [if_pos hc]
        constructor
        · intro h
          cases h
        · intro h
          rw [hc] at h
          cases h
      · rw [if_neg hc]
        simp only [Bool.not_eq_true] at hc
        exact ⟨fun _ => hc, fun _ => rfl⟩
  refine ⟨(hmain dest).1, (hmain dest).2, ?_⟩
  intro names p hp
  unfold UnzipToDir at hp
  obtain ⟨n, -, hn⟩ := List.mem_map.mp hp
  exact ((hmain [n]).1 p hn).2

/-- C7 amended witness: a benign entry extracts under the root and the
contract applies to it. -/
theorem safeJoin_string_prefix_contract_witness :
    "/tmp/dest/sub/file" = goJoin ["/tmp/dest", "sub/file"] ∧
      (cleanPath "/tmp/dest").data.isPrefixOf
        (cleanPath "/tmp/dest/sub/file").data = true :=
  ((safeJoin_string_prefix_contract "/tmp/dest" ["sub/file"]).1
    "/tmp/dest/sub/file" (by decide))

/-! ### C6 -/

/-- Helper: reading inside a dropped list reads the original at the
shifted index. -/
theorem getD_drop_shift (l : List Nat) (n i : Nat) :
    (l.drop n).getD i 0 = l.getD (n + i) 0 := by
  simp [List.getD_eq_getElem?_getD, List.getElem?_drop]

/-- Helper: the scan returns its entry index when the check holds there. -/
theorem sigLoop_entry {b : List Nat} {i : Nat} (h : sigCheck b i = true) :
    sigLoop b i = some i := by
  cases i with
  | zero => simp [sigLoop, h]
  | succ j => simp [sigLoop, h]

/-- Helper: unfolding the discovery when the first (last 1 KiB) block scan
finds the signature. -/
theorem findArchiveStartOffset_found (file : List Nat) (pp : Nat)
    (hfind : findSignatureInBlock (file.drop (file.length - min 1024 file.length)) =
      some pp) :
    findArchiveStartOffset file =
      parseDirectoryEnd file
        ((file.drop (file.length - min 1024 file.length)).drop pp)
        (file.length - min 1024 file.length + pp) := by
  simp only [findArchiveStartOffset]
  rw [hfind]

/-- C6: on a ZIP whose end-of-central-directory record sits at the very
end (empty comment), with arbitrary bytes prepended, the start-offset
discovery finds the signature in the scanned tail block and returns
exactly the number of prepended bytes, computed as directoryEndOffset −
directorySize − directoryOffset. -/
theorem findArchiveStartOffset_prepended (p z0 : List Nat)
    (records dirSize dirOffset : Nat)
    (hrec : records < 65535)
    (hsize32 : dirSize < 4294967296) (hsizeS : dirSize ≠ 65535)
    (hoff32 : dirOffset < 4294967296) (hoffS : dirOffset ≠ 4294967295)
    (hzlen : dirSize + dirOffset = z0.length)
    (hp : p.length + z0.length + 22 < 9223372036854775808) :
    findArchiveStartOffset (p ++ z0 ++ mkEOCD records dirSize dirOffset) =
      Except.ok p.length := by
  have hel : (mkEOCD records dirSize dirOffset).length = 22 := by
    simp [mkEOCD]
  have hm : (p ++ z0).length = p.length + z0.length := by
    simp
  have hsize : (p ++ z0 ++ mkEOCD records dirSize dirOffset).length =
      p.length + z0.length + 22 := by
    simp [mkEOCD]
    omega
  have hidx : ∀ k, (p ++ z0 ++ mkEOCD records dirSize dirOffset).getD
      (p.length + z0.length + k) 0 = (mkEOCD records dirSize dirOffset).getD k 0 := by
    intro k
    have hdropm : (p ++ z0 ++ mkEOCD records dirSize dirOffset).drop
        (p ++ z0).length = mkEOCD records dirSize dirOffset :=
      List.drop_left _ _
    have := getD_drop_shift (p ++ z0 ++ mkEOCD records dirSize dirOffset)
      (p ++ z0).length k
    rw [hdropm, hm] at this
    exact this.symm
  set file := p ++ z0 ++ mkEOCD records dirSize dirOffset with hfiledef
  set bLen1 := min 1024 file.length with hblen
  have hb22 : 22 ≤ bLen1 := by omega
  have hble : bLen1 ≤ file.length := by omega
  have hbuflen : (file.drop (file.length - bLen1)).length = bLen1 := by
    simp
    omega
  have hbufidx : ∀ k, (file.drop (file.length - bLen1)).getD (bLen1 - 22 + k) 0 =
      (mkEOCD records dirSize dirOffset).getD k 0 := by
    intro k
    rw [getD_drop_shift]
    have harith : file.length - bLen1 + (bLen1 - 22 + k) = p.length + z0.length + k := by
      omega
    rw [harith]
    exact hidx k
  have hcheck : sigCheck (file.drop (file.length - bLen1)) (bLen1 - 22) = true := by
    rw [sigCheck, decide_eq_true_eq]
    have h0 := hbufidx 0
    have h1 := hbufidx 1
    have h2 := hbufidx 2
    have h3 := hbufidx 3
    have h20 := hbufidx 20
    have h21 := hbufidx 21
    simp only [Nat.add_zero] at h0
    refine ⟨h0.trans (by simp [mkEOCD]), ?_, ?_, ?_, ?_⟩
    · rw [show bLen1 - 22 + 1 = bLen1 - 22 + 1 from rfl, h1]
      simp [mkEOCD]
    · rw [h2]
      simp [mkEOCD]
    · rw [h3]
      simp [mkEOCD]
    · rw [h20, h21]
      have e20 : (mkEOCD records dirSize dirOffset).getD 20 0 = 0 := by simp [mkEOCD]
      have e21 : (mkEOCD records dirSize dirOffset).getD 21 0 = 0 := by simp [mkEOCD]
      rw [e20, e21, hbuflen]
      omega
  have hfind : findSignatureInBlock (file.drop (file.length - bLen1)) =
      some (bLen1 - 22) := by
    rw [findSignatureInBlock, if_neg (by omega), hbuflen]
    exact sigLoop_entry hcheck
  have hfound := findArchiveStartOffset_found file (bLen1 - 22) (by rw [← hblen]; exact hfind)
  rw [hfound, ← hblen]
  have hbufeq : (file.drop (file.length - bLen1)).drop (bLen1 - 22) =
      mkEOCD records dirSize dirOffset := by
    rw [List.drop_drop]
    have harith2 : file.length - bLen1 + (bLen1 - 22) = (p ++ z0).length := by
      rw [hm]; omega
    rw [harith2]
    exact List.drop_left _ _
  have hoffeq : file.length - bLen1 + (bLen1 - 22) = p.length + z0.length := by
    omega
  rw [hbufeq, hoffeq]
  have hu16_10 : u16 (mkEOCD records dirSize dirOffset) 10 = records := by
    simp [u16, mkEOCD]
    omega
  have hu32_12 : u32 (mkEOCD records dirSize dirOffset) 12 = dirSize := by
    simp [u32, u16, mkEOCD]
    omega
  have hu32_16 : u32 (mkEOCD records dirSize dirOffset) 16 = dirOffset := by
    simp [u32, u16, mkEOCD]
    omega
  simp only [parseDirectoryEnd]
  simp only [hu16_10, hu32_12, hu32_16]
  rw [if_neg (by omega)]
  have hstart : (p.length + z0.length + 36893488147419103232 - dirSize - dirOffset) %
      18446744073709551616 = p.length := by
    omega
  dsimp only
  rw [if_neg (by rw [hsize]; omega)]
  rw [hstart]

/-- C6 witness: a bare end-of-central-directory record (an empty archive)
with 0, 100, 1024 and 65537 prepended bytes; the discovered start offset
is the prefix length in each case. -/
theorem findArchiveStartOffset_prepended_witness :
    findArchiveStartOffset (mkEOCD 0 0 0) = Except.ok 0 ∧
      findArchiveStartOffset (List.replicate 100 7 ++ mkEOCD 0 0 0) = Except.ok 100 ∧
      findArchiveStartOffset (List.replicate 1024 7 ++ mkEOCD 0 0 0) = Except.ok 1024 ∧
      findArchiveStartOffset (List.replicate 65537 7 ++ mkEOCD 0 0 0) =
        Except.ok 65537 := by
  refine ⟨?_, ?_, ?_, ?_⟩
  · have h := findArchiveStartOffset_prepended [] [] 0 0 0 (by decide) (by decide)
      (by decide) (by decide) (by decide) (by decide) (by decide)
    rw [List.nil_append, List.nil_append] at h
    exact h
  · have h := findArchiveStartOffset_prepended (List.replicate 100 7) [] 0 0 0
      (by decide) (by decide) (by decide) (by decide) (by decide) (by decide)
      (by rw [List.length_replicate, List.length_nil]; omega)
    rw [List.append_nil, List.length_replicate] at h
    exact h
  · have h := findArchiveStartOffset_prepended (List.replicate 1024 7) [] 0 0 0
      (by decide) (by decide) (by decide) (by decide) (by decide) (by decide)
      (by rw [List.length_replicate, List.length_nil]; omega)
    rw [List.append_nil, List.length_replicate] at h
    exact h
  · have h := findArchiveStartOffset_prepended (List.replicate 65537 7) [] 0 0 0
      (by decide) (by decide) (by decide) (by decide) (by decide) (by decide)
      (by rw [List.length_replicate, List.length_nil]; omega)
    rw [List.append_nil, List.length_replicate] at h
    exact h

/-! ### C2 — dedupe map lemmas -/

/-- Helper: lookup after an upsert. -/
theorem lookup_upsert (m : List (String × CPE)) (k0 : String) (c : CPE) (k : String) :
    lookupCPE (upsert k0 c m) k = if k0 = k then some c else lookupCPE m k := by
  induction m with
  | nil => simp [upsert, lookupCPE]
  | cons q rest ih =>
    obtain ⟨k', c'⟩ := q
    by_cases hk : k' = k0
    · subst hk
      by_cases hkk : k' = k <;> simp [upsert, lookupCPE, hkk]
    · by_cases hkk : k' = k
      · subst hkk
        have hne : ¬ (k0 = k') := fun hh => hk hh.symm
        simp [upsert, lookupCPE, hk, hne]
      · simp [upsert, lookupCPE, hk, hkk, ih]

/-- Helper: keys after an upsert. -/
theorem mem_keys_upsert (m : List (String × CPE)) (k0 : String) (c : CPE) (k : String) :
    (k ∈ (upsert k0 c m).map Prod.fst) ↔ (k = k0 ∨ k ∈ m.map Prod.fst) := by
  induction m with
  | nil => simp [upsert]
  | cons q rest ih =>
    obtain ⟨k', c'⟩ := q
    by_cases hk : k' = k0
    · subst hk
      simp [upsert]
    · simp only [upsert, if_neg hk, List.map_cons, List.mem_cons, ih]
      tauto

/-- Helper: an upsert keeps the keys without duplicates. -/
theorem nodup_keys_upsert (m : List (String × CPE)) (k0 : String) (c : CPE)
    (h : (m.map Prod.fst).Nodup) : ((upsert k0 c m).map Prod.fst).Nodup := by
  induction m with
  | nil => simp [upsert]
  | cons q rest ih =>
    obtain ⟨k', c'⟩ := q
    simp only [List.map_cons, List.nodup_cons] at h
    by_cases hk : k' = k0
    · subst hk
      have hup : upsert k' c ((k', c') :: rest) = (k', c) :: rest := by
        simp [upsert]
      rw [hup]
      simp only [List.map_cons, List.nodup_cons]
      exact h
    · simp only [upsert, if_neg hk, List.map_cons, List.nodup_cons]
      refine ⟨?_, ih h.2⟩
      rw [mem_keys_upsert]
      rintro (rfl | hmem)
      · exact hk rfl
      · exact h.1 hmem

/-- Helper: an upsert with a matching key keeps the key-value invariant. -/
theorem inv_upsert (m : List (String × CPE)) (c : CPE)
    (h : ∀ q ∈ m, cpeKey q.2 = q.1) :
    ∀ q ∈ upsert (cpeKey c) c m, cpeKey q.2 = q.1 := by
  induction m with
  | nil =>
    intro q hq
    have hq' : q = (cpeKey c, c) := by simpa [upsert] using hq
    rw [hq']
  | cons p rest ih =>
    obtain ⟨k', c'⟩ := p
    intro q hq
    by_cases hk : k' = cpeKey c
    · simp only [upsert, if_pos hk] at hq
      rcases List.mem_cons.mp hq with rfl | hq2
      · rfl
      · exact h _ (List.mem_cons_of_mem _ hq2)
    · simp only [upsert, if_neg hk] at hq
      rcases List.mem_cons.mp hq with rfl | hq2
      · exact h _ (List.mem_cons_self _ _)
      · exact ih (fun p hp => h p (List.mem_cons_of_mem _ hp)) q hq2

/-- Helper: keys of the dedupe fold. -/
theorem dedupe_mem_keys (l : List CPE) :
    ∀ (m : List (String × CPE)) (k : String),
      (k ∈ (dedupeCPEs m l).map Prod.fst) ↔
        (k ∈ m.map Prod.fst ∨ k ∈ l.map cpeKey) := by
  induction l with
  | nil => intro m k; simp [dedupeCPEs]
  | cons c rest ih =>
    intro m k
    simp only [dedupeCPEs, ih, mem_keys_upsert, List.map_cons, List.mem_cons]
    tauto

/-- Helper: the dedupe fold keeps the keys without duplicates. -/
theorem dedupe_nodup (l : List CPE) :
    ∀ (m : List (String × CPE)), (m.map Prod.fst).Nodup →
      ((dedupeCPEs m l).map Prod.fst).Nodup := by
  induction l with
  | nil => intro m h; exact h
  | cons c rest ih =>
    intro m h
    exact ih _ (nodup_keys_upsert m (cpeKey c) c h)

/-- Helper: the dedupe fold keeps the key-value invariant. -/
theorem dedupe_inv (l : List CPE) :
    ∀ (m : List (String × CPE)), (∀ q ∈ m, cpeKey q.2 = q.1) →
      ∀ q ∈ dedupeCPEs m l, cpeKey q.2 = q.1 := by
  induction l with
  | nil => intro m h; exact h
  | cons c rest ih =>
    intro m h
    exact ih _ (inv_upsert m c h)

/-- Helper: the dedupe fold stores the last element of the input with a
given key; with no such element the starting map decides. -/
theorem dedupe_lookup (l : List CPE) :
    ∀ (m : List (String × CPE)) (k : String),
      lookupCPE (dedupeCPEs m l) k =
        (match (l.filter (fun c => cpeKey c == k)).getLast? with
         | some c => some c
         | none => lookupCPE m k) := by
  induction l with
  | nil => intro m k; simp [dedupeCPEs]
  | cons c rest ih =>
    intro m k
    simp only [dedupeCPEs, List.filter_cons]
    by_cases hkc : cpeKey c = k
    · rw [if_pos (by simpa using hkc)]
      rw [ih]
      rw [getLast?_cons_getD]
      cases hfl : (rest.filter (fun c => cpeKey c == k)).getLast? with
      | some c' => simp
      | none =>
        simp only [Option.getD_none]
        rw [lookup_upsert, if_pos hkc]
    · rw [if_neg (by simpa using hkc)]
      rw [ih]
      cases hfl : (rest.filter (fun c => cpeKey c == k)).getLast? with
      | some c' => simp
      | none =>
        simp only
        rw [lookup_upsert, if_neg hkc]

/-- Helper: in a map with distinct keys, a member is found by its key. -/
theorem lookup_of_mem_nodup {m : List (String × CPE)} {k : String} {c : CPE}
    (hnd : (m.map Prod.fst).Nodup) (hmem : (k, c) ∈ m) :
    lookupCPE m k = some c := by
  induction m with
  | nil => simp at hmem
  | cons q rest ih =>
    obtain ⟨k', c'⟩ := q
    simp only [List.map_cons, List.nodup_cons] at hnd
    rcases List.mem_cons.mp hmem with heq | hmem'
    · cases heq
      simp [lookupCPE]
    · have hk : ¬ (k' = k) := by
        intro rfl_eq
        subst rfl_eq
        exact hnd.1 (List.mem_map.mpr ⟨(k', c), hmem', rfl⟩)
      simp only [lookupCPE, if_neg hk]
      exact ih hnd.2 hmem'

/-! ### C2 — scan lemmas -/

/-- Helper: the quoting scan splits over appends. -/
theorem scanSep_append : ∀ (xs : List Char) (e : Bool) (ys : List Char),
    scanSep e (xs ++ ys) =
      ((scanSep (scanSep e xs).1 ys).1,
        (scanSep e xs).2 + (scanSep (scanSep e xs).1 ys).2) := by
  intro xs
  induction xs with
  | nil =>
    intro e ys
    simp [scanSep]
  | cons c cs ih =>
    intro e ys
    cases e with
    | true =>
      simp only [List.cons_append, scanSep]
      exact ih false ys
    | false =>
      by_cases hc : c = '\\'
      · simp only [List.cons_append, scanSep, if_pos hc]
        exact ih true ys
      · have hious := ih false ys
        rcases h1 : scanSep false cs with ⟨e1, n1⟩
        rcases h3 : scanSep false (cs ++ ys) with ⟨e3, n3⟩
        rcases h2 : scanSep e1 ys with ⟨e2, n2⟩
        rw [h1, h3] at hious
        simp only [h2, Prod.mk.injEq] at hious
        obtain ⟨hie, hin⟩ := hious
        rw [List.cons_append]
        simp only [scanSep, if_neg hc, h1, h2, h3, Prod.mk.injEq]
        refine ⟨hie, ?_⟩
        by_cases hcc : c = ':'
        · simp only [if_pos hcc]
          omega
        · simp only [if_neg hcc]
          omega

/-- Helper: a quoted value scans with no separators and a clean state. -/
theorem scanSep_escL : ∀ (s : List Char), scanSep false (escL s) = (false, 0) := by
  intro s
  induction s with
  | nil => rfl
  | cons c cs ih =>
    by_cases hc : c = ':' ∨ c = '\\'
    · simp only [escL, escChar, if_pos hc, List.cons_append, List.nil_append]
      simp only [scanSep, if_pos rfl]
      exact ih
    · simp only [escL, escChar, if_neg hc, List.cons_append, List.nil_append]
      push_neg at hc
      simp only [scanSep, if_neg hc.2]
      rw [ih]
      simp [hc.1]

/-- Helper: a quoted value followed by a separator adds one separator. -/
theorem scanSep_seg (s t : List Char) :
    scanSep false (escL s ++ ':' :: t) =
      ((scanSep false t).1, (scanSep false t).2 + 1) := by
  rw [scanSep_append, scanSep_escL]
  simp only [scanSep]
  rcases h : scanSep false t with ⟨e1, n1⟩
  simp [scanSep, h]

/-- Helper: a bound format string scans to exactly six separators and a
clean state. -/
theorem scanSep_bindL (a : Attributes) : scanSep false (bindL a) = (false, 6) := by
  have hpre : scanSep false ("cpe:2.3:".data ++ escL a.part.data) = (false, 2) := by
    rw [scanSep_append, show scanSep false ("cpe:2.3:".data) = (false, 2) from by decide]
    simp [scanSep_escL]
  have h4 : scanSep false (escL a.version.data ++ ':' :: escL a.targetSW.data) =
      (false, 1) := by
    rw [scanSep_seg, scanSep_escL]
  have h3 : scanSep false (escL a.product.data ++ ':' ::
      (escL a.version.data ++ ':' :: escL a.targetSW.data)) = (false, 2) := by
    rw [scanSep_seg, h4]
  have h2 : scanSep false (escL a.vendor.data ++ ':' ::
      (escL a.product.data ++ ':' :: (escL a.version.data ++ ':' ::
        escL a.targetSW.data))) = (false, 3) := by
    rw [scanSep_seg, h3]
  show scanSep false (("cpe:2.3:".data ++ escL a.part.data) ++ ':' ::
      (escL a.vendor.data ++ ':' :: (escL a.product.data ++ ':' ::
        (escL a.version.data ++ ':' :: escL a.targetSW.data)))) = (false, 6)
  rw [scanSep_append, hpre]
  simp [scanSep, h2]

/-- Helper: scanning past a plain character changes nothing. -/
theorem scanSep_cons_plain (c : Char) (hc1 : ¬ c = '\\') (hc2 : ¬ c = ':')
    (l : List Char) : scanSep false (c :: l) = scanSep false l := by
  simp only [scanSep, if_neg hc1, if_neg hc2]

/-- Helper: scanning past an unquoted colon counts it. -/
theorem scanSep_cons_colon (l : List Char) :
    scanSep false (':' :: l) =
      ((scanSep false l).1, (scanSep false l).2 + 1) := by
  simp only [scanSep]
  rcases h : scanSep false l with ⟨e1, n1⟩
  simp [h]

/-- Helper: a dedupe key has no second decomposition: no proper suffix of a
key whose value part scans clean to six separators is itself a value part. -/
theorem no_nested_split (t b2 : List Char)
    (hcrit : critB (t ++ ':' :: b2) = true)
    (hscan2 : scanSep false b2 = (false, 6)) : False := by
  have hc := of_decide_eq_true hcrit
  obtain ⟨htake, hscan⟩ := hc
  rcases hst : scanSep false t with ⟨e_t, n_t⟩
  have hsplit := scanSep_append t false (':' :: b2)
  rw [hscan] at hsplit
  cases e_t with
  | false =>
    have hstep : scanSep false (':' :: b2) = (false, 7) := by
      rw [scanSep_cons_colon, hscan2]
    simp only [hst, hstep, Prod.mk.injEq] at hsplit
    omega
  | true =>
    have hstep : scanSep true (':' :: b2) = (false, 6) := by
      simp only [scanSep]
      exact hscan2
    simp only [hst, hstep, Prod.mk.injEq] at hsplit
    obtain ⟨-, hsix⟩ := hsplit
    have hnt : n_t = 0 := by omega
    subst hnt
    rcases t with _ | ⟨x, _ | ⟨y, _ | ⟨z, _ | ⟨w, rest⟩⟩⟩⟩
    · exact absurd hst (by decide)
    · have ht4 : ([x] ++ ':' :: b2).take 4 = x :: ':' :: b2.take 2 := rfl
      rw [ht4] at htake
      simp only [List.cons.injEq] at htake
      exact absurd htake.2.1 (by decide)
    · have ht4 : ([x, y] ++ ':' :: b2).take 4 = x :: y :: ':' :: b2.take 1 := rfl
      rw [ht4] at htake
      simp only [List.cons.injEq] at htake
      exact absurd htake.2.2.1 (by decide)
    · have ht4 : ([x, y, z] ++ ':' :: b2).take 4 = [x, y, z, ':'] := rfl
      rw [ht4] at htake
      simp only [List.cons.injEq] at htake
      obtain ⟨hx, hy, hz, -⟩ := htake
      subst hx; subst hy; subst hz
      exact absurd hst (by decide)
    · have ht4 : ((x :: y :: z :: w :: rest) ++ ':' :: b2).take 4 = [x, y, z, w] := rfl
      rw [ht4] at htake
      simp only [List.cons.injEq] at htake
      obtain ⟨hx, hy, hz, hw, -⟩ := htake
      subst hx; subst hy; subst hz; subst hw
      rw [scanSep_cons_plain 'c' (by decide) (by decide)] at hst
      rw [scanSep_cons_plain 'p' (by decide) (by decide)] at hst
      rw [scanSep_cons_plain 'e' (by decide) (by decide)] at hst
      rw [scanSep_cons_colon] at hst
      simp only [Prod.mk.injEq] at hst
      omega

/-- Helper: a key made of an arbitrary prefix, a colon and a well-formed
value part splits back at exactly that colon. -/
theorem findKeySplit_eq (b : List Char) (hb : critB b = true) :
    ∀ xs : List Char, findKeySplit (xs ++ ':' :: b) = some (xs, b) := by
  have hscanb : scanSep false b = (false, 6) := (of_decide_eq_true hb).2
  intro xs
  induction xs with
  | nil =>
    simp [findKeySplit, hb]
  | cons x xs' ih =>
    rw [List.cons_append]
    simp only [findKeySplit]
    have hcond : ¬ (x = ':' ∧ critB (xs' ++ ':' :: b) = true) := by
      rintro ⟨-, hcrit⟩
      exact no_nested_split xs' b hcrit hscanb
    rw [if_neg hcond, ih]

/-- Helper: the bound format string of any attributes is a well-formed
value part. -/
theorem critB_bindL (a : Attributes) : critB (bindL a) = true :=
  decide_eq_true ⟨rfl, scanSep_bindL a⟩

/-- Helper: recovering the (source, bound string) pair from a dedupe key is
exact. -/
theorem pairKeyInv_key (s : String) (a : Attributes) :
    pairKeyInv (s ++ ":" ++ a.bindToFmtString) = (s, a.bindToFmtString) := by
  have hdata : (s ++ ":" ++ a.bindToFmtString).data = s.data ++ ':' :: bindL a := by
    show (s.data ++ [':']) ++ bindL a = s.data ++ ':' :: bindL a
    rw [List.append_assoc]
    rfl
  simp only [pairKeyInv, hdata, findKeySplit_eq (bindL a) (critB_bindL a) s.data]
  rfl

/-- Helper: the spec's identity pair of a CPE is recovered from its dedupe
key. -/
theorem cpePair_eq (c : CPE) : cpePair c = pairKeyInv (cpeKey c) :=
  (pairKeyInv_key c.source c.attributes).symm

/-- Helper: the comparison only depends on the rank, specificity score,
field length and bound string of each side. -/
theorem cpeLess_congr (x x' y y' : CPE)
    (hx1 : getRank x.source = getRank x'.source)
    (hx2 : weightedCountForSpecifiedFields x.attributes =
      weightedCountForSpecifiedFields x'.attributes)
    (hx3 : countFieldLength x.attributes = countFieldLength x'.attributes)
    (hx4 : x.attributes.bindToFmtString = x'.attributes.bindToFmtString)
    (hy1 : getRank y.source = getRank y'.source)
    (hy2 : weightedCountForSpecifiedFields y.attributes =
      weightedCountForSpecifiedFields y'.attributes)
    (hy3 : countFieldLength y.attributes = countFieldLength y'.attributes)
    (hy4 : y.attributes.bindToFmtString = y'.attributes.bindToFmtString) :
    bySourceThenSpecificityLess x y = bySourceThenSpecificityLess x' y' := by
  rw [Bool.eq_iff_iff, cpeLess_iff, cpeLess_iff, hx1, hx2, hx3, hx4, hy1, hy2, hy3, hy4]

/-- Helper: the sort relation derived from the comparison is total. -/
theorem cpeLE_total : ∀ x y : CPE, cpeLE x y ∨ cpeLE y x := by
  intro x y
  cases h1 : bySourceThenSpecificityLess y x with
  | false => exact Or.inl h1
  | true =>
    cases h2 : bySourceThenSpecificityLess x y with
    | false => exact Or.inr h2
    | true => exact (cpeLess_asymm x y h2 h1).elim

/-- Helper: the sort relation derived from the comparison is transitive. -/
theorem cpeLE_trans : ∀ x y z : CPE, cpeLE x y → cpeLE y z → cpeLE x z := by
  intro x y z h1 h2
  show bySourceThenSpecificityLess z x = false
  cases h3 : bySourceThenSpecificityLess z x with
  | false => rfl
  | true =>
    exfalso
    rcases cpeLess_connex y z with hyz | hzy | heq
    · rcases cpeLess_connex x y with hxy | hyx | heq2
      · have hzy' := cpeLess_trans z x y h3 hxy
        rw [h2] at hzy'
        exact Bool.noConfusion hzy'
      · rw [h1] at hyx
        exact Bool.noConfusion hyx
      · have hc : bySourceThenSpecificityLess z x = bySourceThenSpecificityLess z y :=
          cpeLess_congr z z x y rfl rfl rfl rfl heq2.1 heq2.2.1 heq2.2.2.1 heq2.2.2.2
        rw [hc, h2] at h3
        exact Bool.noConfusion h3
    · rw [h2] at hzy
      exact Bool.noConfusion hzy
    · have hc : bySourceThenSpecificityLess z x = bySourceThenSpecificityLess y x :=
        cpeLess_congr z y x x heq.1.symm heq.2.1.symm heq.2.2.1.symm heq.2.2.2.symm
          rfl rfl rfl rfl
      rw [hc, h1] at h3
      exact Bool.noConfusion h3

/-- Helper: the keys of the dedupe map are the keys of its stored values. -/
theorem dedupe_vals_keys (l : List CPE) :
    ((dedupeCPEs [] l).map Prod.snd).map cpeKey = (dedupeCPEs [] l).map Prod.fst := by
  have hinv := dedupe_inv l [] (by intro q hq; simp at hq)
  rw [List.map_map]
  exact List.map_congr_left (fun q hq => hinv q hq)

/-- Helper: deduping `a ++ b` and `b ++ a` produces the same key sets, as
lists a permutation of each other. -/
theorem dedupe_keys_perm (a b : List CPE) :
    ((dedupeCPEs [] (a ++ b)).map Prod.fst).Perm
      ((dedupeCPEs [] (b ++ a)).map Prod.fst) := by
  have h1 : ((dedupeCPEs [] (a ++ b)).map Prod.fst).Nodup :=
    dedupe_nodup _ [] (by simp)
  have h2 : ((dedupeCPEs [] (b ++ a)).map Prod.fst).Nodup :=
    dedupe_nodup _ [] (by simp)
  rw [List.perm_ext_iff_of_nodup h1 h2]
  intro k
  rw [dedupe_mem_keys (a ++ b) [] k, dedupe_mem_keys (b ++ a) [] k]
  simp only [List.map_nil, List.not_mem_nil, false_or, List.map_append, List.mem_append]
  exact or_comm

/-- C2: for all CPE lists `a` and `b`, `Merge a b` and `Merge b a` agree as
multisets of (source, bound-format-string) pairs; within one call the result
has no duplicate pair, the later-listed operand's CPE wins on a key
collision (every element of the result is the last element of `a ++ b`
carrying its dedupe key), and the result is sorted by the
`BySourceThenSpecificity` order. -/
theorem merge_comm_dedup_sorted (a b : List CPE) :
    ((Merge a b).map cpePair).Perm ((Merge b a).map cpePair) ∧
    ((Merge a b).map cpePair).Nodup ∧
    (∀ x ∈ Merge a b,
      ((a ++ b).filter (fun y => cpeKey y == cpeKey x)).getLast? = some x) ∧
    List.Sorted cpeLE (Merge a b) := by
  have hperm1 : (Merge a b).Perm ((dedupeCPEs [] (a ++ b)).map Prod.snd) :=
    List.perm_insertionSort _ _
  have hperm2 : (Merge b a).Perm ((dedupeCPEs [] (b ++ a)).map Prod.snd) :=
    List.perm_insertionSort _ _
  have hkeys1 : ((Merge a b).map cpeKey).Perm ((dedupeCPEs [] (a ++ b)).map Prod.fst) := by
    rw [← dedupe_vals_keys]
    exact hperm1.map cpeKey
  have hkeys2 : ((Merge b a).map cpeKey).Perm ((dedupeCPEs [] (b ++ a)).map Prod.fst) := by
    rw [← dedupe_vals_keys]
    exact hperm2.map cpeKey
  have hkeysperm : ((Merge a b).map cpeKey).Perm ((Merge b a).map cpeKey) :=
    (hkeys1.trans (dedupe_keys_perm a b)).trans hkeys2.symm
  have hpairs : ∀ l : List CPE, l.map cpePair = (l.map cpeKey).map pairKeyInv := by
    intro l
    rw [List.map_map]
    exact List.map_congr_left (fun c _ => cpePair_eq c)
  refine ⟨?_, ?_, ?_, ?_⟩
  · rw [hpairs, hpairs]
    exact hkeysperm.map pairKeyInv
  · have hnd1 : ((Merge a b).map cpeKey).Nodup :=
      (hkeys1.nodup_iff).mpr (dedupe_nodup _ [] (by simp))
    have hkeyofpair : (Merge a b).map cpeKey =
        ((Merge a b).map cpePair).map (fun q => q.1 ++ ":" ++ q.2) := by
      rw [List.map_map]
      rfl
    apply List.Nodup.of_map (fun q => q.1 ++ ":" ++ q.2)
    rw [← hkeyofpair]
    exact hnd1
  · intro x hx
    have hxvals : x ∈ (dedupeCPEs [] (a ++ b)).map Prod.snd := hperm1.subset hx
    obtain ⟨q, hq, hqx⟩ := List.mem_map.mp hxvals
    have hkey : q.1 = cpeKey x := by
      rw [← hqx]
      exact (dedupe_inv _ [] (by intro p hp; simp at hp) q hq).symm
    have hqpair : q = (cpeKey x, x) := by
      obtain ⟨k', c'⟩ := q
      simp only at hkey hqx
      rw [hkey, hqx]
    have hlk : lookupCPE (dedupeCPEs [] (a ++ b)) (cpeKey x) = some x :=
      lookup_of_mem_nodup (dedupe_nodup _ [] (by simp)) (hqpair ▸ hq)
    have hdl := dedupe_lookup (a ++ b) [] (cpeKey x)
    rw [hlk] at hdl
    cases hfl : ((a ++ b).filter (fun y => cpeKey y == cpeKey x)).getLast? with
    | some c =>
      rw [hfl] at hdl
      simp only at hdl
      exact hdl.symm
    | none =>
      rw [hfl] at hdl
      simp [lookupCPE] at hdl
  · haveI : IsTotal CPE cpeLE := ⟨cpeLE_total⟩
    haveI : IsTrans CPE cpeLE := ⟨cpeLE_trans⟩
    exact List.sorted_insertionSort cpeLE _

/-- Witness for C2: the claim instantiated at two concrete single-element
lists, with the membership hypothesis of the later-wins conjunct discharged
on a concrete element. -/
theorem merge_comm_dedup_sorted_witness :
    (⟨"generated", ⟨"a", "v", "p", "1", "t"⟩⟩ : CPE) ∈
        Merge [(⟨"declared", ⟨"a", "v", "p", "1", "t"⟩⟩ : CPE)]
          [(⟨"generated", ⟨"a", "v", "p", "1", "t"⟩⟩ : CPE)] ∧
      (([(⟨"declared", ⟨"a", "v", "p", "1", "t"⟩⟩ : CPE)] ++
          [(⟨"generated", ⟨"a", "v", "p", "1", "t"⟩⟩ : CPE)]).filter
        (fun y => cpeKey y ==
          cpeKey (⟨"generated", ⟨"a", "v", "p", "1", "t"⟩⟩ : CPE))).getLast? =
        some (⟨"generated", ⟨"a", "v", "p", "1", "t"⟩⟩ : CPE) :=
  ⟨by decide,
    (merge_comm_dedup_sorted [(⟨"declared", ⟨"a", "v", "p", "1", "t"⟩⟩ : CPE)]
      [(⟨"generated", ⟨"a", "v", "p", "1", "t"⟩⟩ : CPE)]).2.2.1
      (⟨"generated", ⟨"a", "v", "p", "1", "t"⟩⟩ : CPE) (by decide)⟩
